import Mathlib

/-!
Verification of the static k-ary search index (`src/static_index/kary_index.h`).

The index stores a sorted snapshot `container_` of (key, value) entries and a flat
array `inner_nodes_` of pivot keys encoding an implicit k-ary search tree.
The embedding below translates the C++ member functions into Lean functions.

Machine-integer conventions of the source are kept explicit:
  * `size_t` is a 64-bit unsigned integer; converting an `int` to `size_t`
    reduces modulo 2^64 (function `u64`).
  * `int` is 32-bit; converting a `size_t` to `int` takes the low 32 bits,
    interpreted as a signed value (function `i32`).
  * C++ integer division of nonnegative `int` values truncates toward zero,
    which is `Int.tdiv` here.

Reads from the two arrays are modelled totally: a read of `container_` returns
an `Option Entry` (`none` for an out-of-bounds subscript), and a slot of
`inner_nodes_` holds an `Option Nat` (`none` models uninitialized memory, since
the C++ allocates the pivot array with `new` and only then fills it).  The
search functions therefore return `Option` results, `none` marking an execution
that would have touched memory outside the two arrays or an unwritten pivot.
-/

/-- A (key, value) tuple as stored by the data table and the sorted snapshot.
Keys and values are unsigned 64-bit in the source; the claims never exercise
key arithmetic that could overflow, so they are plain naturals here. -/
structure Entry where
  key_ : Nat
  value_ : Nat
deriving DecidableEq, Repr

/-- Default entry used for the (unreachable under the proved preconditions)
out-of-bounds reads of the construction phase. -/
def dEntry : Entry := ⟨0, 0⟩

/-- Conversion of a C++ `int` value to `size_t`: reduce modulo 2^64.
Int.emod with a positive modulus is nonnegative, matching the unsigned result. -/
def u64 (x : Int) : Nat := (x % (2 ^ 64 : Int)).toNat

/-- Conversion of a `size_t` value to a 32-bit `int`: take the low 32 bits and
interpret them as a signed value (the behavior of the compilers this code
targets). -/
def i32 (n : Nat) : Int :=
  if n % 2 ^ 32 < 2 ^ 31 then ((n % 2 ^ 32 : Nat) : Int)
  else ((n % 2 ^ 32 : Nat) : Int) - 2 ^ 32

/-- The C++ expression `begin_offset + s` where `begin_offset` is an `int` and
`s` a `size_t`: the sum is computed in `size_t` and converted back to `int`
when used as an `int` argument. -/
def pAdd0 (b : Int) (s : Nat) : Int := i32 ((u64 b + s) % 2 ^ 64)

/-- The C++ expression `begin_offset + s + 1` computed in `size_t` and
converted back to `int`. -/
def pAdd1 (b : Int) (s : Nat) : Int := i32 ((u64 b + s + 1) % 2 ^ 64)

/-- The C++ expression `begin_offset + s - 1` computed in `size_t` (so the
subtraction wraps) and converted back to `int`. -/
def pSub1 (b : Int) (s : Nat) : Int := i32 ((u64 b + s + (2 ^ 64 - 1)) % 2 ^ 64)

/-- The index state: the data table it references (`table_ptr_` in the source,
an insertion-ordered list of tuples), the sorted snapshot `container_` with its
cached key range, the configuration `(num_layers_, k_)` and the pivot array
`inner_nodes_`.  A slot value `none` in `inner_nodes_` models memory the
construction never wrote. -/
structure KAryIndex where
  table : List Entry
  container_ : Array Entry
  num_layers_ : Nat
  k_ : Nat
  key_min_ : Nat
  key_max_ : Nat
  inner_nodes_ : Array (Option Nat)
deriving DecidableEq, Repr

/-- The snapshot size `size_` (number of entries of `container_`). -/
def KAryIndex.size_ (st : KAryIndex) : Nat := st.container_.size

/-- Read of `container_[x]` where `x` is an `int` subscript: the subscript is
converted to `size_t` first; an out-of-bounds position yields `none`. -/
def readC (st : KAryIndex) (x : Int) : Option Entry := st.container_.get? (u64 x)

/-- Modelled from the spec: the data table (`DataTable` of
`src/data_table.h`, absent from the sources) appends tuples in insertion
order; `insert` returns a stable offset, which the claims never inspect, so
the model keeps only the appended tuple. -/
def KAryIndex.insert (st : KAryIndex) (key value : Nat) : KAryIndex :=
  { st with table := st.table ++ [⟨key, value⟩] }

/-- Stable insertion of an entry into a key-sorted list: the new entry is
placed after all existing entries with a key less than or equal to its own,
so earlier-inserted tuples of equal key stay first. -/
def insertSorted (en : Entry) : List Entry → List Entry
  | [] => [en]
  | x :: xs => if x.key_ ≤ en.key_ then x :: insertSorted en xs else en :: x :: xs

/-- Modelled from the spec: `base_reorganize` of `src/base_static_index.h`
(absent from the sources) projects the data table into a contiguous snapshot
sorted by key ascending, equal keys keeping insertion order (spec section 4.2:
a stable key-sorted projection). -/
def project_sorted (table : List Entry) : Array Entry :=
  (table.foldl (fun acc en => insertSorted en acc) []).toArray

/-- One loop iteration block of the pivot-writing loop
`for (i = 0; i < k_ - 1; ++i) inner_nodes_[base+dst+i] = container_[b + step*(i+1)].key_;`
of `construct_inner_layers` / `construct_inner_layers_internal`.
The subscript of `container_` is computed in `size_t`. -/
def writeLoop (C : Array Entry) (b : Int) (step jbase i : Nat) :
    Nat → Array (Option Nat) → Array (Option Nat)
  | 0, I => I
  | n + 1, I =>
      writeLoop C b step jbase (i + 1) n
        (I.setD (jbase + i) (some ((C.getD ((u64 b + step * (i + 1)) % 2 ^ 64) dEntry).key_)))

/-- The recursive helper `construct_inner_layers_internal(begin, end, base_pos,
dst_pos, curr_layer)`.  It returns early when the subrange is empty, writes the
`k-1` pivots of the current node, and when more layers remain recurses into the
`k` child subranges (first child, the middle children in order, last child).
The source guards the recursion with `num_layers_ == curr_layer + 1`; the
recursion only ever reaches `curr_layer + 1 ≤ num_layers_`, where that test
coincides with the `≤` used here (which also makes termination manifest). -/
def construct_inner_layers_internal (C : Array Entry) (k L : Nat) (b e : Int)
    (base dst curr : Nat) (I : Array (Option Nat)) : Array (Option Nat) :=
  if b > e then I
  else
    let step : Nat := u64 (e - b) / k
    let I1 := writeLoop C b step (base + dst) 0 (k - 1) I
    if h : L ≤ curr + 1 then I1
    else
      let nb := (base + 1) * k - 1
      let nd := dst * k
      let I2 := construct_inner_layers_internal C k L b (pSub1 b step) nb nd (curr + 1) I1
      let I3 := (List.range' 1 (k - 2)).foldl
        (fun J i => construct_inner_layers_internal C k L (pAdd1 b (step * i))
          (pSub1 b (step * (i + 1))) nb (nd + i * (k - 1)) (curr + 1) J) I2
      construct_inner_layers_internal C k L (pAdd1 b (step * (k - 1))) e nb
        (nd + (k - 1) * (k - 1)) (curr + 1) I3
termination_by L - curr
decreasing_by all_goals omega

/-- The top-level `construct_inner_layers`: it asserts `num_layers_ != 0`
(modelled as an early return), works on the full range `[0, size_-1]` with
`size_t` locals, writes layer 0, and recurses into the `k` children with
`base_pos = k-1` when more than one layer is configured. -/
def construct_inner_layers (C : Array Entry) (k L : Nat)
    (I : Array (Option Nat)) : Array (Option Nat) :=
  if L = 0 then I
  else
    let e64 : Nat := (C.size + (2 ^ 64 - 1)) % 2 ^ 64
    let step : Nat := e64 / k
    let I1 := writeLoop C 0 step 0 0 (k - 1) I
    if L = 1 then I1
    else
      let I2 := construct_inner_layers_internal C k L 0 (pSub1 0 step) (k - 1) 0 1 I1
      let I3 := (List.range' 1 (k - 2)).foldl
        (fun J i => construct_inner_layers_internal C k L (pAdd1 0 (step * i))
          (pSub1 0 (step * (i + 1))) (k - 1) (i * (k - 1)) 1 J) I2
      construct_inner_layers_internal C k L (pAdd1 0 (step * (k - 1))) (i32 e64) (k - 1)
        ((k - 1) * (k - 1)) 1 I3

/-- The rebuild driver `reorganize`.  It first refreshes the snapshot from the
data table (`base_reorganize`), then checks the configuration
`k_^num_layers_ - 1 < size_`; the source reports a violation through `ASSERT`.
Modelled from the spec: `ASSERT` (defined in the absent `src/macros.h`) reports
the error to the caller (spec section 7), modelled by the Boolean component of
the result (`true` = error); the remaining statements of `reorganize` are then
not executed.  On success it caches `key_min_`/`key_max_` and builds the pivot
array (for `num_layers_ = 0` no pivot array exists, modelled as the empty
array). -/
def reorganize (st : KAryIndex) : KAryIndex × Bool :=
  let C := project_sorted st.table
  let st1 : KAryIndex := { st with container_ := C }
  let M := st.k_ ^ st.num_layers_ - 1
  if ¬ M < C.size then (st1, true)
  else
    let st2 : KAryIndex := { st1 with
      key_min_ := (C.getD 0 dEntry).key_
      key_max_ := (C.getD (C.size - 1) dEntry).key_ }
    if st.num_layers_ ≠ 0 then
      let I := construct_inner_layers C st.k_ st.num_layers_ (Array.mkArray M none)
      ({ st2 with inner_nodes_ := I }, false)
    else
      ({ st2 with inner_nodes_ := #[] }, false)

/-- The equality scan of the pivot loop of `find_inner_layers` /
`find_inner_layers_internal`: starting at slot `j`, test `cnt` consecutive
pivots in order and return the relative index of the first one equal to `key`
(`some (some i)`), `some none` when none is equal, or `none` when a tested slot
was never written or lies outside the pivot array. -/
def firstEqAux (st : KAryIndex) (key : Nat) (j : Nat) : Nat → Option (Option Nat)
  | 0 => some none
  | n + 1 =>
    match st.inner_nodes_.getD j none with
    | none => none
    | some v =>
      if key = v then some (some 0)
      else (firstEqAux st key (j + 1) n).map (fun r => r.map (fun t => t + 1))

/-- The child-selection scan: return the relative index of the first of `cnt`
pivots with `key < pivot`, or `cnt` when there is none (the last child).
This reproduces the `if (key < inner_nodes_[...])` cascade of the source. -/
def firstLtAux (st : KAryIndex) (key : Nat) (j : Nat) : Nat → Option Nat
  | 0 => some 0
  | n + 1 =>
    match st.inner_nodes_.getD j none with
    | none => none
    | some v =>
      if key < v then some 0
      else (firstLtAux st key (j + 1) n).map (fun t => t + 1)

/-- The recursive helper `find_inner_layers_internal(key, begin, end, base_pos,
dst_pos, curr_layer)`: at the terminal layer return the range as-is; otherwise
compute the step (the `int` difference `end - begin` is converted to `size_t`
for the division), return a singleton range on a pivot hit, else descend into
the child selected by the comparison cascade.  The source tests
`num_layers_ == curr_layer`; the recursion only reaches
`curr_layer ≤ num_layers_`, where that test coincides with the `≤` used here. -/
def find_inner_layers_internal (st : KAryIndex) (key : Nat) (b e : Int)
    (base dst curr : Nat) : Option (Int × Int) :=
  if st.num_layers_ ≤ curr then some (b, e)
  else
    let step : Nat := u64 (e - b) / st.k_
    match firstEqAux st key (base + dst) (st.k_ - 1) with
    | none => none
    | some (some i) => some (pAdd0 b (step * (i + 1)), pAdd0 b (step * (i + 1)))
    | some none =>
      match firstLtAux st key (base + dst) (st.k_ - 1) with
      | none => none
      | some i =>
        let nb := (base + 1) * st.k_ - 1
        let nd := dst * st.k_
        if i = 0 then
          find_inner_layers_internal st key b (pSub1 b step) nb nd (curr + 1)
        else if i = st.k_ - 1 then
          find_inner_layers_internal st key (pAdd1 b (step * (st.k_ - 1))) e nb
            (nd + i * (st.k_ - 1)) (curr + 1)
        else
          find_inner_layers_internal st key (pAdd1 b (step * i)) (pSub1 b (step * (i + 1))) nb
            (nd + i * (st.k_ - 1)) (curr + 1)
termination_by st.num_layers_ - curr
decreasing_by all_goals omega

/-- The top-level `find_inner_layers`: with no inner layers it returns the
pair `(0, size_)` (note: `size_`, not `size_ - 1`); otherwise it handles
layer 0 inline (with `int` locals `begin_offset = 0`,
`end_offset = size_ - 1`, the latter computed in `size_t` and narrowed) and
descends exactly like the recursive helper. -/
def find_inner_layers (st : KAryIndex) (key : Nat) : Option (Int × Int) :=
  if st.num_layers_ = 0 then some (0, (st.size_ : Int))
  else
    let b : Int := 0
    let e : Int := i32 ((st.size_ + (2 ^ 64 - 1)) % 2 ^ 64)
    let step : Nat := u64 (e - b) / st.k_
    match firstEqAux st key 0 (st.k_ - 1) with
    | none => none
    | some (some i) => some (pAdd0 b (step * (i + 1)), pAdd0 b (step * (i + 1)))
    | some none =>
      match firstLtAux st key 0 (st.k_ - 1) with
      | none => none
      | some i =>
        if i = 0 then
          find_inner_layers_internal st key b (pSub1 b step) (st.k_ - 1) 0 1
        else if i = st.k_ - 1 then
          find_inner_layers_internal st key (pAdd1 b (step * (st.k_ - 1))) e (st.k_ - 1)
            ((st.k_ - 1) * (st.k_ - 1)) 1
        else
          find_inner_layers_internal st key (pAdd1 b (step * i)) (pSub1 b (step * (i + 1)))
            (st.k_ - 1) (i * (st.k_ - 1)) 1

/-- Bounds of the truncating-toward-zero middle of a nonempty range: the probe
position of the binary search stays inside the range. -/
theorem tdiv_avg_bounds (b e : Int) (h : b ≤ e) :
    b ≤ Int.tdiv (b + e) 2 ∧ Int.tdiv (b + e) 2 ≤ e := by
  rcases Int.le_total 0 (b + e) with hs | hs
  · rw [Int.tdiv_eq_ediv hs (by omega)]
    omega
  · have h2 : Int.tdiv (b + e) 2 = -((-(b + e)).tdiv 2) := by
      rw [← Int.neg_tdiv, neg_neg]
    have h3 : (-(b + e)).tdiv 2 = (-(b + e)) / 2 := Int.tdiv_eq_ediv (by omega) (by omega)
    rw [h3] at h2
    omega

/-- The binary search `find_internal(key, offset_begin, offset_end)` over the
snapshot: an empty range reports "not found" by returning `size_`; otherwise
probe the middle (`int` division truncating toward zero, subscript converted
to `size_t`) and recurse left or right.  The `size_t` return of the source is
a natural number here; `none` marks an out-of-bounds probe. -/
def find_internal (st : KAryIndex) (key : Nat) (b e : Int) : Option Nat :=
  if h : b > e then some st.size_
  else
    let m := Int.tdiv (b + e) 2
    match st.container_.get? (u64 m) with
    | none => none
    | some en =>
      if key = en.key_ then some (u64 m)
      else if key > en.key_ then find_internal st key (m + 1) e
      else find_internal st key b (m - 1)
termination_by (e + 1 - b).toNat
decreasing_by
  all_goals
    have hm := tdiv_avg_bounds b e (by omega)
  all_goals omega

/-- The left while-loop of `find`: starting at `int` position `l`, while the
position is nonnegative and the entry there matches `key`, collect its value
and step left. -/
def move_left (st : KAryIndex) (key : Nat) (l : Int) : Option (List Nat) :=
  if l < 0 then some []
  else
    match readC st l with
    | none => none
    | some en =>
      if en.key_ = key then (move_left st key (l - 1)).map (fun vs => en.value_ :: vs)
      else some []
termination_by (l + 1).toNat
decreasing_by omega

/-- The right while-loop of `find`: the loop variable `offset_find_rhs` is an
`int` that the comparison `offset_find_rhs <= size_ - 1` converts to `size_t`.
In every execution that reaches this loop the variable starts at
`offset_find + 1 ≥ 1` and only increments, so it coincides with the natural
number used here, and the loop condition is `r < size_`. -/
def move_right (st : KAryIndex) (key : Nat) (r : Nat) : Option (List Nat) :=
  if h : r < st.size_ then
    match st.container_.get? r with
    | none => none
    | some en =>
      if en.key_ = key then (move_right st key (r + 1)).map (fun vs => en.value_ :: vs)
      else some []
  else some []
termination_by st.size_ - r
decreasing_by omega

/-- The tail of `find` after the anchor offset is known (lines 52-80 of the
source): report nothing when the binary search returned `size_`; otherwise
emit the anchor value, then the values collected moving left, then those
collected moving right. -/
def emit_from (st : KAryIndex) (key : Nat) (off : Nat) : Option (List Nat) :=
  if off = st.size_ then some []
  else
    match st.container_.get? off with
    | none => none
    | some en =>
      match move_left st key ((off : Int) - 1), move_right st key (off + 1) with
      | some lvs, some rvs => some (en.value_ :: (lvs ++ rvs))
      | _, _ => none

/-- The point lookup `find(key)`.  Empty index and out-of-range keys return
nothing; a constant index (`key_min_ == key_max_`) emits every value; otherwise
descend the inner layers, treat an equal pair as the anchor directly, run the
binary search otherwise, and emit the anchor with its left and right equal-key
neighbors. -/
def find (st : KAryIndex) (key : Nat) : Option (List Nat) :=
  if st.size_ = 0 then some []
  else if key > st.key_max_ ∨ key < st.key_min_ then some []
  else if st.key_max_ = st.key_min_ then
    if st.key_max_ = key then
      some ((List.range st.size_).map (fun i => (st.container_.getD i dEntry).value_))
    else some []
  else
    match find_inner_layers st key with
    | none => none
    | some r =>
      match (if r.1 = r.2 then some (u64 r.1) else find_internal st key r.1 r.2) with
      | none => none
      | some off => emit_from st key off

/-- The range lookup `find_range(lhs_key, rhs_key)`.  The source asserts the
precondition `lhs_key < rhs_key` (modelled as `none`), returns early on an
empty index or a disjoint range, and is otherwise an unfinished stub that
emits nothing. -/
def find_range (st : KAryIndex) (lhs rhs : Nat) : Option (List Nat) :=
  if ¬ lhs < rhs then none
  else if st.size_ = 0 then some []
  else if lhs > st.key_max_ ∨ rhs < st.key_min_ then some []
  else some []

/-! ## Basic facts about the machine-integer wrappers -/

/-- Key of the snapshot entry at position `p`. -/
def keyAt (st : KAryIndex) (p : Nat) : Nat := (st.container_.getD p dEntry).key_

/-- Value of the snapshot entry at position `p`. -/
def valAt (st : KAryIndex) (p : Nat) : Nat := (st.container_.getD p dEntry).value_

theorem u64_small (x : Int) (h0 : 0 ≤ x) (h : x < 2 ^ 64) : u64 x = x.toNat := by
  unfold u64
  rw [Int.emod_eq_of_lt h0 (by exact_mod_cast h)]

theorem u64_ofNat (n : Nat) (h : n < 2 ^ 64) : u64 (n : Int) = n := by
  rw [u64_small (n : Int) (by positivity) (by exact_mod_cast h)]
  simp

theorem i32_small (n : Nat) (h : n < 2 ^ 31) : i32 n = (n : Int) := by
  unfold i32
  rw [Nat.mod_eq_of_lt (by omega), if_pos h]

theorem pAdd0_eq (b : Int) (s : Nat) (h0 : 0 ≤ b) (h : b + s < 2 ^ 31) :
    pAdd0 b s = b + s := by
  unfold pAdd0
  rw [u64_small b h0 (by omega)]
  have h1 : b.toNat + s < 2 ^ 31 := by omega
  rw [Nat.mod_eq_of_lt (by omega), i32_small _ h1]
  omega

theorem pAdd1_eq (b : Int) (s : Nat) (h0 : 0 ≤ b) (h : b + s + 1 < 2 ^ 31) :
    pAdd1 b s = b + s + 1 := by
  unfold pAdd1
  rw [u64_small b h0 (by omega)]
  have h1 : b.toNat + s + 1 < 2 ^ 31 := by omega
  rw [Nat.mod_eq_of_lt (by omega), i32_small _ h1]
  omega

theorem pSub1_eq (b : Int) (s : Nat) (h0 : 0 ≤ b) (h : b + s ≤ 2 ^ 31) :
    pSub1 b s = b + s - 1 := by
  unfold pSub1
  rw [u64_small b h0 (by omega)]
  rcases Nat.eq_zero_or_pos (b.toNat + s) with hz | hp
  · have h1 : (b.toNat + s + (2 ^ 64 - 1)) % 2 ^ 64 = 2 ^ 64 - 1 := by omega
    rw [h1]
    unfold i32
    norm_num
    omega
  · have h1 : (b.toNat + s + (2 ^ 64 - 1)) % 2 ^ 64 = b.toNat + s - 1 := by omega
    rw [h1, i32_small _ (by omega)]
    omega

theorem idx64_eq (b : Int) (s : Nat) (h0 : 0 ≤ b) (h : b + s < 2 ^ 64) :
    (u64 b + s) % 2 ^ 64 = (b + s).toNat := by
  rw [u64_small b h0 (by omega)]
  omega

theorem step_u64 (b e : Int) (h0 : 0 ≤ b) (hbe : b ≤ e) (h : e < 2 ^ 64) :
    u64 (e - b) = (e - b).toNat := u64_small (e - b) (by omega) (by omega)

/-! ## Array read and write helpers -/

theorem getD_setD_self {α : Type} (a : Array α) (i : Nat) (v d : α) (h : i < a.size) :
    (a.setD i v).getD i d = v := by
  rw [Array.getD_eq_get?, Array.getElem?_setD_eq a h v]
  rfl

theorem getD_setD_ne {α : Type} (a : Array α) (i j : Nat) (v d : α) (h : i ≠ j) :
    (a.setD i v).getD j d = a.getD j d := by
  unfold Array.setD
  split
  · rw [Array.getD_eq_get?, Array.getD_eq_get?, Array.getElem?_set_ne]
    exact h
  · rfl

theorem getD_mkArray_none (n j : Nat) :
    (Array.mkArray n (none : Option Nat)).getD j none = none := by
  rw [Array.getD_eq_get?]
  rcases Nat.lt_or_ge j n with h | h
  · rw [Array.getElem?_lt _ (by simpa using h)]
    simp
  · rw [Array.getElem?_ge _ (by simpa using h)]
    rfl

/-! ## The pivot-writing loop -/

theorem writeLoop_size (C : Array Entry) (b : Int) (step jbase : Nat) :
    ∀ cnt i I, (writeLoop C b step jbase i cnt I).size = I.size := by
  intro cnt
  induction cnt with
  | zero => intro i I; rfl
  | succ n ih =>
    intro i I
    rw [writeLoop, ih]
    simp

theorem writeLoop_getD_lo (C : Array Entry) (b : Int) (step jbase : Nat) :
    ∀ cnt i I j, j < jbase + i →
      (writeLoop C b step jbase i cnt I).getD j none = I.getD j none := by
  intro cnt
  induction cnt with
  | zero => intro i I j _; rfl
  | succ n ih =>
    intro i I j hj
    rw [writeLoop, ih _ _ _ (by omega), getD_setD_ne _ _ _ _ _ (by omega)]

theorem writeLoop_getD_hi (C : Array Entry) (b : Int) (step jbase : Nat) :
    ∀ cnt i I j, jbase + i + cnt ≤ j →
      (writeLoop C b step jbase i cnt I).getD j none = I.getD j none := by
  intro cnt
  induction cnt with
  | zero => intro i I j _; rfl
  | succ n ih =>
    intro i I j hj
    rw [writeLoop, ih _ _ _ (by omega), getD_setD_ne _ _ _ _ _ (by omega)]

theorem writeLoop_getD_in (C : Array Entry) (b : Int) (step jbase : Nat) :
    ∀ cnt i I t, i ≤ t → t < i + cnt → jbase + t < I.size →
      (writeLoop C b step jbase i cnt I).getD (jbase + t) none =
        some ((C.getD ((u64 b + step * (t + 1)) % 2 ^ 64) dEntry).key_) := by
  intro cnt
  induction cnt with
  | zero => intro i I t h1 h2 _; omega
  | succ n ih =>
    intro i I t h1 h2 hsz
    rw [writeLoop]
    rcases Nat.eq_or_lt_of_le h1 with rfl | hlt
    · rw [writeLoop_getD_lo _ _ _ _ _ _ _ _ (by omega),
        getD_setD_self _ _ _ _ hsz]
    · rw [ih _ _ _ (by omega) (by omega) (by simpa using hsz)]

/-! ## The implicit tree layout

The construction and the descent both traverse the same tree of snapshot
subranges.  A node of that tree is described by its layer `c`, its slot group
offset `d` inside the layer (the source's `dst_pos`), and its subrange
`[b, e]` of the snapshot; its `k-1` pivot slots are
`inner_nodes_[(k^c - 1) + d + i]` (the source's `base_pos` at layer `c` is
`k^c - 1`).  `stepN`, `childB` and `childE` are the exact child-subrange
formulas of the source, written over unbounded integers; lemmas below connect
them to the wrapped `size_t`/`int` arithmetic under the size bound. -/

/-- The step of a node with subrange `[b, e]`: `(e - b) / k` as computed by the
source (nonnegative throughout the reachable tree). -/
def stepN (k : Nat) (b e : Int) : Int := (((e - b).toNat / k : Nat) : Int)

/-- Begin offset of child `i` of a node with subrange `[b, e]`. -/
def childB (k : Nat) (b e : Int) (i : Nat) : Int :=
  if i = 0 then b else b + stepN k b e * i + 1

/-- End offset of child `i` of a node with subrange `[b, e]`. -/
def childE (k : Nat) (b e : Int) (i : Nat) : Int :=
  if i = k - 1 then e else b + stepN k b e * (i + 1) - 1

/-- Positions of the pivot array that the subtree rooted at a layer-`c` node
with slot group `d` can reach at relative depth `t`. -/
def BandMem (k c t d j : Nat) : Prop :=
  k ^ (c + t) - 1 + d * k ^ t ≤ j ∧ j < k ^ (c + t) - 1 + (d + (k - 1)) * k ^ t

/-- The nodes of the implicit tree, as reached from a given root node by the
child steps of the source recursion (step `i` enters child `i`, only taken
while more layers remain). -/
inductive NodeFrom (k L : Nat) : Nat → Nat → Int → Int → Nat → Nat → Int → Int → Prop where
  | refl (c d : Nat) (b e : Int) : NodeFrom k L c d b e c d b e
  | step (c d : Nat) (b e : Int) (i c2 d2 : Nat) (b2 e2 : Int) :
      i < k → c + 1 < L →
      NodeFrom k L (c + 1) (d * k + i * (k - 1)) (childB k b e i) (childE k b e i) c2 d2 b2 e2 →
      NodeFrom k L c d b e c2 d2 b2 e2

/-- The invariants of a reachable tree node over a snapshot of `N` entries:
the layer is an inner layer, the subrange sits inside the snapshot, it is
large enough to feed the remaining layers, and the slot group offset is inside
its layer. -/
structure NInv (N k L : Nat) (c d : Nat) (b e : Int) : Prop where
  hc : c < L
  hb : 0 ≤ b
  he : e ≤ (N : Int) - 1
  hrange : ((k : Int)) ^ (L - c) - k ≤ e - b
  hd : d ≤ (k - 1) * (k ^ c - 1)

theorem pow_cast_comm (k n : Nat) : ((k ^ n : Nat) : Int) = (k : Int) ^ n := by
  push_cast
  ring

theorem stepN_nonneg (k : Nat) (b e : Int) : 0 ≤ stepN k b e := by
  unfold stepN
  positivity

theorem stepN_mul_le (k : Nat) (b e : Int) (h : b ≤ e) : stepN k b e * k ≤ e - b := by
  unfold stepN
  have h1 : (e - b).toNat / k * k ≤ (e - b).toNat := Nat.div_mul_le_self _ _
  omega

theorem childB_zero (k : Nat) (b e : Int) : childB k b e 0 = b := by
  unfold childB
  simp

theorem childB_pos (k : Nat) (b e : Int) (i : Nat) (hi : i ≠ 0) :
    childB k b e i = b + stepN k b e * i + 1 := by
  unfold childB
  rw [if_neg hi]

theorem childE_last (k : Nat) (b e : Int) (i : Nat) (hi : i = k - 1) :
    childE k b e i = e := by
  unfold childE
  rw [if_pos hi]

theorem childE_mid (k : Nat) (b e : Int) (i : Nat) (hi : i ≠ k - 1) :
    childE k b e i = b + stepN k b e * (i + 1) - 1 := by
  unfold childE
  rw [if_neg hi]

theorem stepN_lb (k L c : Nat) (b e : Int) (hk : 2 ≤ k) (hc : c < L)
    (hrange : ((k : Int)) ^ (L - c) - k ≤ e - b) :
    ((k : Int)) ^ (L - c - 1) - 1 ≤ stepN k b e := by
  have hP : k ^ (L - c) = k ^ (L - c - 1) * k := by
    conv_lhs => rw [show L - c = (L - c - 1) + 1 by omega]
    rw [pow_succ]
  have hcast : ((k ^ (L - c) : Nat) : Int) = (k : Int) ^ (L - c) := pow_cast_comm k _
  have hcast1 : ((k ^ (L - c - 1) : Nat) : Int) = (k : Int) ^ (L - c - 1) := pow_cast_comm k _
  have hs : k ^ (L - c) - k ≤ (e - b).toNat := by omega
  have hdiv : k ^ (L - c - 1) - 1 ≤ (e - b).toNat / k := by
    apply (Nat.le_div_iff_mul_le (by omega : 0 < k)).mpr
    have h2 : (k ^ (L - c - 1) - 1) * k = k ^ (L - c - 1) * k - k := by rw [Nat.sub_mul]; omega
    omega
  unfold stepN
  omega

theorem NInv.nonempty {N k L c d : Nat} {b e : Int} (hk : 2 ≤ k)
    (inv : NInv N k L c d b e) : b ≤ e := by
  have h1 : (1 : Nat) ≤ L - c := by have := inv.hc; omega
  have h2 : ((k : Int)) ^ (L - c) ≥ (k : Int) ^ 1 := by
    apply pow_le_pow_right₀ (by exact_mod_cast by omega : (1 : Int) ≤ (k : Int)) h1
  have := inv.hrange
  have h3 : ((k : Int)) ^ 1 = (k : Int) := pow_one _
  omega

theorem NInv.child {N k L c d : Nat} {b e : Int} (hk : 2 ≤ k)
    (inv : NInv N k L c d b e) (hcc : c + 1 < L) (i : Nat) (hi : i < k) :
    NInv N k L (c + 1) (d * k + i * (k - 1)) (childB k b e i) (childE k b e i) := by
  have hbe : b ≤ e := inv.nonempty hk
  have hq0 : 0 ≤ stepN k b e := stepN_nonneg k b e
  have hqk : stepN k b e * k ≤ e - b := stepN_mul_le k b e hbe
  have hql : ((k : Int)) ^ (L - c - 1) - 1 ≤ stepN k b e :=
    stepN_lb k L c b e hk inv.hc inv.hrange
  have hLc : L - (c + 1) = L - c - 1 := by omega
  have hpow1 : (1 : Int) ≤ (k : Int) ^ (L - c - 1) := one_le_pow₀ (by exact_mod_cast by omega)
  have hbnd : ∀ m : Nat, m ≤ k → stepN k b e * m ≤ stepN k b e * k := by
    intro m hm
    apply mul_le_mul_of_nonneg_left _ hq0
    exact_mod_cast hm
  have hb2 : 0 ≤ b := inv.hb
  have he2 : e ≤ (N : Int) - 1 := inv.he
  have hcbB : b ≤ childB k b e i ∧ 0 ≤ childB k b e i := by
    rcases Nat.eq_zero_or_pos i with rfl | hip
    · rw [childB_zero]
      omega
    · rw [childB_pos k b e i (by omega)]
      have : 0 ≤ stepN k b e * i := mul_nonneg hq0 (by positivity)
      omega
  have hceE : childE k b e i ≤ e := by
    by_cases hik : i = k - 1
    · rw [childE_last k b e i hik]
    · rw [childE_mid k b e i hik]
      have hstep := hbnd (i + 1) (by omega)
      push_cast at hstep
      omega
  refine ⟨hcc, hcbB.2, by omega, ?_, ?_⟩
  · -- the child range is large enough for the remaining layers
    rw [hLc]
    by_cases hik : i = k - 1
    · -- last child
      rw [childE_last k b e i hik, childB_pos k b e i (by omega)]
      have hsplit : stepN k b e * i + stepN k b e = stepN k b e * k := by
        have : ((i : Int)) + 1 = (k : Int) := by
          have : i = k - 1 := hik
          subst this
          push_cast [Nat.cast_sub (by omega : 1 ≤ k)]
          ring
        calc stepN k b e * i + stepN k b e = stepN k b e * ((i : Int) + 1) := by ring
          _ = stepN k b e * k := by rw [this]
      omega
    · rcases Nat.eq_zero_or_pos i with rfl | hip
      · -- first child
        rw [childE_mid k b e 0 hik, childB_zero]
        have : stepN k b e * ((0 : Nat) + 1) = stepN k b e := by push_cast; ring
        rw [this]
        omega
      · -- middle child, k ≥ 3
        rw [childE_mid k b e i hik, childB_pos k b e i (by omega)]
        have hk3 : 3 ≤ k := by omega
        have h3 : (3 : Int) ≤ (k : Int) := by exact_mod_cast hk3
        have hstep : stepN k b e * ((i : Int) + 1) - stepN k b e * i = stepN k b e := by ring
        omega
  · -- slot group offset stays inside its layer
    have hkc : 1 ≤ k ^ c := Nat.one_le_pow _ _ (by omega)
    have hkc1 : 1 ≤ k ^ (c + 1) := Nat.one_le_pow _ _ (by omega)
    have hk1 : 1 ≤ k := by omega
    have hd1 := inv.hd
    have hsucc : ((k ^ (c + 1) : Nat) : Int) = ((k ^ c : Nat) : Int) * (k : Int) := by
      rw [pow_succ]
      push_cast
      ring
    zify [hkc, hkc1, hk1] at hd1 ⊢
    have h2 : (i : Int) ≤ (k : Int) - 1 := by
      have h3 : (i : Int) < (k : Int) := by exact_mod_cast hi
      omega
    have hK0 : (0 : Int) ≤ (k : Int) := by positivity
    have hK1 : (0 : Int) ≤ (k : Int) - 1 := by
      have h3 : (2 : Int) ≤ (k : Int) := by exact_mod_cast hk
      omega
    calc (d : Int) * k + (i : Int) * ((k : Int) - 1)
        ≤ ((k : Int) - 1) * ((k : Int) ^ c - 1) * k + ((k : Int) - 1) * ((k : Int) - 1) := by
          have hA : (d : Int) * k ≤ ((k : Int) - 1) * ((k : Int) ^ c - 1) * k :=
            mul_le_mul_of_nonneg_right hd1 hK0
          have hB : (i : Int) * ((k : Int) - 1) ≤ ((k : Int) - 1) * ((k : Int) - 1) :=
            mul_le_mul_of_nonneg_right h2 hK1
          omega
      _ = ((k : Int) - 1) * ((k : Int) ^ c * k - 1) := by ring
      _ = ((k : Int) - 1) * ((k : Int) ^ (c + 1) - 1) := by rw [pow_succ]

theorem pow_le_pow_layer (k a bn : Nat) (hk : 2 ≤ k) (h : a ≤ bn) : k ^ a ≤ k ^ bn :=
  Nat.pow_le_pow_right (by omega) h

theorem band_base (k c d i : Nat) (hk : 2 ≤ k) (hi : i < k - 1) :
    BandMem k c 0 d (k ^ c - 1 + d + i) := by
  constructor
  · simp [pow_zero]
  · simp [pow_zero]
    omega

theorem band_child (k c t d i j : Nat) (hk : 2 ≤ k) (hi : i < k)
    (h : BandMem k (c + 1) t (d * k + i * (k - 1)) j) : BandMem k c (t + 1) d j := by
  obtain ⟨h1, h2⟩ := h
  have hpow : k ^ (c + 1 + t) = k ^ (c + (t + 1)) := by ring_nf
  have hstep : k ^ (t + 1) = k ^ t * k := by rw [pow_succ]
  constructor
  · have hlow : d * k ^ (t + 1) ≤ (d * k + i * (k - 1)) * k ^ t := by
      rw [hstep]
      calc d * (k ^ t * k) = d * k * k ^ t := by ring
        _ ≤ (d * k + i * (k - 1)) * k ^ t := Nat.mul_le_mul_right _ (by omega)
    omega
  · have hup : (d * k + i * (k - 1) + (k - 1)) * k ^ t ≤ (d + (k - 1)) * k ^ (t + 1) := by
      rw [hstep]
      calc (d * k + i * (k - 1) + (k - 1)) * k ^ t
          ≤ (d * k + (k - 1) * k) * k ^ t := by
            apply Nat.mul_le_mul_right
            have h3 : i * (k - 1) + (k - 1) = (i + 1) * (k - 1) := by ring
            have h4 : (i + 1) * (k - 1) ≤ (k - 1) * k := by
              calc (i + 1) * (k - 1) = (k - 1) * (i + 1) := by ring
                _ ≤ (k - 1) * k := Nat.mul_le_mul_left _ (by omega)
            omega
        _ = (d + (k - 1)) * (k ^ t * k) := by ring
    omega

theorem band_in_layer (k c t d j : Nat) (hk : 2 ≤ k) (hd : d + (k - 1) ≤ (k - 1) * k ^ c)
    (h : BandMem k c t d j) : k ^ (c + t) - 1 ≤ j ∧ j < k ^ (c + t + 1) - 1 := by
  obtain ⟨h1, h2⟩ := h
  constructor
  · omega
  · have h3 : (d + (k - 1)) * k ^ t ≤ (k - 1) * k ^ c * k ^ t := Nat.mul_le_mul_right _ hd
    have h4 : k ^ (c + t) - 1 + (k - 1) * k ^ c * k ^ t = k ^ (c + t + 1) - 1 := by
      have h5 : (k - 1) * k ^ c * k ^ t = (k - 1) * k ^ (c + t) := by
        rw [mul_assoc, ← pow_add]
      have h6 : 1 ≤ k ^ (c + t) := Nat.one_le_pow _ _ (by omega)
      have h7 : k ^ (c + t + 1) = k * k ^ (c + t) := by
        rw [pow_succ]
        ring
      have h8 : (k - 1) * k ^ (c + t) + k ^ (c + t) = k * k ^ (c + t) := by
        have h9 := Nat.sub_mul k 1 (k ^ (c + t))
        have h10 : k ^ (c + t) ≤ k * k ^ (c + t) := Nat.le_mul_of_pos_left _ (by omega)
        omega
      omega
    omega

theorem band_disjoint (k c t1 t2 d1 d2 j : Nat) (hk : 2 ≤ k)
    (h12 : d1 + (k - 1) ≤ d2)
    (hub1 : d1 + (k - 1) ≤ (k - 1) * k ^ c) (hub2 : d2 + (k - 1) ≤ (k - 1) * k ^ c)
    (m1 : BandMem k c t1 d1 j) (m2 : BandMem k c t2 d2 j) : False := by
  rcases Nat.lt_trichotomy t1 t2 with hlt | heq | hgt
  · have L1 := band_in_layer k c t1 d1 j hk hub1 m1
    have L2 := band_in_layer k c t2 d2 j hk hub2 m2
    have hmono : k ^ (c + t1 + 1) ≤ k ^ (c + t2) := pow_le_pow_layer k _ _ hk (by omega)
    omega
  · subst heq
    obtain ⟨h1a, h1b⟩ := m1
    obtain ⟨h2a, h2b⟩ := m2
    have h3 : (d1 + (k - 1)) * k ^ t1 ≤ d2 * k ^ t1 := Nat.mul_le_mul_right _ h12
    omega
  · have L1 := band_in_layer k c t1 d1 j hk hub1 m1
    have L2 := band_in_layer k c t2 d2 j hk hub2 m2
    have hmono : k ^ (c + t2 + 1) ≤ k ^ (c + t1) := pow_le_pow_layer k _ _ hk (by omega)
    omega

theorem slot_lt_next_layer (k c d i : Nat) (hk : 2 ≤ k) (hd : d ≤ (k - 1) * (k ^ c - 1))
    (hi : i < k - 1) : k ^ c - 1 + d + i < k ^ (c + 1) - 1 := by
  have hkc : 1 ≤ k ^ c := Nat.one_le_pow _ _ (by omega)
  have h1 : (k - 1) * (k ^ c - 1) + (k - 1) = (k - 1) * k ^ c := by
    rw [Nat.mul_sub]
    have h2 : k - 1 ≤ (k - 1) * k ^ c := Nat.le_mul_of_pos_right _ (by omega)
    omega
  have h3 : k ^ (c + 1) = k ^ c * k := pow_succ k c
  have h4 : k ^ c * k = k ^ c + k ^ c * (k - 1) := by
    rw [Nat.mul_sub]
    have h5 : k ^ c ≤ k ^ c * k := Nat.le_mul_of_pos_right _ (by omega)
    omega
  have h6 : (k - 1) * k ^ c = k ^ c * (k - 1) := by ring
  omega

/-- A reachable node keeps the invariants. -/
theorem NodeFrom.inv {N k L c d c2 d2 : Nat} {b e b2 e2 : Int} (hk : 2 ≤ k)
    (h : NodeFrom k L c d b e c2 d2 b2 e2) (inv : NInv N k L c d b e) :
    NInv N k L c2 d2 b2 e2 := by
  induction h with
  | refl => exact inv
  | step c d b e i c2 d2 b2 e2 hi hcc hrest ih => exact ih (inv.child hk hcc i hi)

/-- Reachability extends through one more child step taken at the far node. -/
theorem NodeFrom.extend {k L c d c2 d2 : Nat} {b e b2 e2 : Int}
    (h : NodeFrom k L c d b e c2 d2 b2 e2) (i : Nat) (hi : i < k) (hcc : c2 + 1 < L) :
    NodeFrom k L c d b e (c2 + 1) (d2 * k + i * (k - 1)) (childB k b2 e2 i) (childE k b2 e2 i) := by
  induction h with
  | refl c d b e => exact NodeFrom.step c d b e i _ _ _ _ hi hcc (NodeFrom.refl _ _ _ _)
  | step c d b e i0 c2 d2 b2 e2 hi0 hcc0 hrest ih =>
      exact NodeFrom.step c d b e i0 _ _ _ _ hi0 hcc0 (ih hcc)

theorem NodeFrom.layer_le {k L c d c2 d2 : Nat} {b e b2 e2 : Int}
    (h : NodeFrom k L c d b e c2 d2 b2 e2) : c ≤ c2 := by
  induction h with
  | refl => omega
  | step _ _ _ _ _ _ _ _ _ _ _ _ ih => omega

/-- A pivot slot of any node of a subtree lies inside the bands of the
subtree root. -/
theorem NodeFrom.slot_band {k L c d c2 d2 : Nat} {b e b2 e2 : Int} (hk : 2 ≤ k)
    (h : NodeFrom k L c d b e c2 d2 b2 e2) (i : Nat) (hi : i < k - 1) :
    BandMem k c (c2 - c) d (k ^ c2 - 1 + d2 + i) := by
  induction h with
  | refl c d b e =>
      have h0 : c - c = 0 := by omega
      rw [h0]
      exact band_base k c d i hk hi
  | step c d b e i0 c2 d2 b2 e2 hi0 hcc hrest ih =>
      have hle : c + 1 ≤ c2 := hrest.layer_le
      have h1 : c2 - (c + 1) + 1 = c2 - c := by omega
      have h2 := band_child k c (c2 - (c + 1)) d i0 _ hk hi0 ih
      rw [h1] at h2
      exact h2

/-! ## Construction: what the recursion writes -/

theorem cilint_size (C : Array Entry) (k L : Nat) :
    ∀ (f : Nat) (b e : Int) (base dst curr : Nat) (I : Array (Option Nat)), L - curr ≤ f →
      (construct_inner_layers_internal C k L b e base dst curr I).size = I.size := by
  intro f
  induction f with
  | zero =>
    intro b e base dst curr I hf
    rw [construct_inner_layers_internal]
    split_ifs with h1 h2
    · rfl
    · exact writeLoop_size C b _ (base + dst) (k - 1) 0 I
    · omega
  | succ n ih =>
    intro b e base dst curr I hf
    rw [construct_inner_layers_internal]
    split_ifs with h1 h2
    · rfl
    · exact writeLoop_size C b _ (base + dst) (k - 1) 0 I
    · have hfold : ∀ (lst : List Nat) (J : Array (Option Nat)),
          ((lst.foldl (fun J i => construct_inner_layers_internal C k L
              (pAdd1 b (u64 (e - b) / k * i)) (pSub1 b (u64 (e - b) / k * (i + 1)))
              ((base + 1) * k - 1) (dst * k + i * (k - 1)) (curr + 1) J) J).size = J.size) := by
        intro lst
        induction lst with
        | nil => intro J; rfl
        | cons x xs ihx =>
          intro J
          rw [List.foldl_cons, ihx, ih _ _ _ _ _ _ (by omega)]
      rw [ih _ _ _ _ _ _ (by omega), hfold, ih _ _ _ _ _ _ (by omega),
        writeLoop_size C b _ (base + dst) (k - 1) 0 I]

theorem writeLoop_modified (C : Array Entry) (b : Int) (step jbase cnt : Nat)
    (I : Array (Option Nat)) (j : Nat)
    (h : (writeLoop C b step jbase 0 cnt I).getD j none ≠ I.getD j none) :
    jbase ≤ j ∧ j < jbase + cnt := by
  by_contra hc
  rcases Nat.lt_or_ge j jbase with hlt | hge
  · exact h (writeLoop_getD_lo C b step jbase cnt 0 I j (by omega))
  · exact h (writeLoop_getD_hi C b step jbase cnt 0 I j (by omega))

theorem base_succ_eq (k curr : Nat) (hk : 2 ≤ k) :
    (k ^ curr - 1 + 1) * k - 1 = k ^ (curr + 1) - 1 := by
  have h1 : 1 ≤ k ^ curr := Nat.one_le_pow _ _ (by omega)
  have h2 : k ^ (curr + 1) = k ^ curr * k := pow_succ k curr
  have h3 : (k ^ curr - 1 + 1) = k ^ curr := by omega
  rw [h3, h2]

theorem cilint_frame (C : Array Entry) (k L : Nat) (hk : 2 ≤ k) :
    ∀ (f : Nat) (b e : Int) (d curr : Nat) (I : Array (Option Nat)) (j : Nat), L - curr ≤ f →
      (construct_inner_layers_internal C k L b e (k ^ curr - 1) d curr I).getD j none ≠
        I.getD j none →
      ∃ t, BandMem k curr t d j := by
  intro f
  induction f with
  | zero =>
    intro b e d curr I j hf hne
    rw [construct_inner_layers_internal] at hne
    split_ifs at hne with h1 h2
    · exact absurd rfl hne
    · have hmod := writeLoop_modified C b _ (k ^ curr - 1 + d) (k - 1) I j hne
      exact ⟨0, by simpa [BandMem] using (by omega : k ^ curr - 1 + d ≤ j ∧ j < k ^ curr - 1 + (d + (k - 1)))⟩
    · omega
  | succ n ih =>
    intro b e d curr I j hf hne
    rw [construct_inner_layers_internal] at hne
    split_ifs at hne with h1 h2
    · exact absurd rfl hne
    · have hmod := writeLoop_modified C b _ (k ^ curr - 1 + d) (k - 1) I j hne
      exact ⟨0, by simpa [BandMem] using (by omega : k ^ curr - 1 + d ≤ j ∧ j < k ^ curr - 1 + (d + (k - 1)))⟩
    · -- recursive case: walk back through the stages
      rw [base_succ_eq k curr hk] at hne
      set q : Nat := u64 (e - b) / k with hq
      set I1 := writeLoop C b q (k ^ curr - 1 + d) 0 (k - 1) I with hI1
      set stepf := fun (J : Array (Option Nat)) (i : Nat) => construct_inner_layers_internal C k L
          (pAdd1 b (q * i)) (pSub1 b (q * (i + 1)))
          (k ^ (curr + 1) - 1) (d * k + i * (k - 1)) (curr + 1) J with hstepf
      set I2 := construct_inner_layers_internal C k L b (pSub1 b q) (k ^ (curr + 1) - 1) (d * k)
        (curr + 1) I1 with hI2
      set I3 := (List.range' 1 (k - 2)).foldl stepf I2 with hI3
      have hchild : ∀ (i : Nat), i < k → ∀ t, BandMem k (curr + 1) t (d * k + i * (k - 1)) j →
          ∃ t2, BandMem k curr t2 d j := by
        intro i hi t hb
        exact ⟨t + 1, band_child k curr t d i j hk hi hb⟩
      by_cases e4 : (construct_inner_layers_internal C k L (pAdd1 b (q * (k - 1))) e
          (k ^ (curr + 1) - 1) (d * k + (k - 1) * (k - 1)) (curr + 1) I3).getD j none =
          I3.getD j none
      · rw [e4] at hne
        have hchain : ∀ (lst : List Nat) (J : Array (Option Nat)), (∀ x ∈ lst, x < k) →
            (lst.foldl stepf J).getD j none ≠ J.getD j none → ∃ t2, BandMem k curr t2 d j := by
          intro lst
          induction lst with
          | nil => intro J _ hx; exact absurd rfl hx
          | cons x xs ihx =>
            intro J hmem hx
            rw [List.foldl_cons] at hx
            by_cases ex : (xs.foldl stepf (stepf J x)).getD j none = (stepf J x).getD j none
            · rw [ex] at hx
              have hb := ih (pAdd1 b (q * x)) (pSub1 b (q * (x + 1))) (d * k + x * (k - 1))
                (curr + 1) J j (by omega) hx
              obtain ⟨t, ht⟩ := hb
              exact hchild x (hmem x (by simp)) t ht
            · exact ihx (stepf J x) (fun y hy => hmem y (by simp [hy])) ex
        by_cases e3 : I3.getD j none = I2.getD j none
        · rw [e3] at hne
          by_cases e2 : I2.getD j none = I1.getD j none
          · rw [e2] at hne
            have hmod := writeLoop_modified C b q (k ^ curr - 1 + d) (k - 1) I j hne
            exact ⟨0, by simpa [BandMem] using
              (by omega : k ^ curr - 1 + d ≤ j ∧ j < k ^ curr - 1 + (d + (k - 1)))⟩
          · have hb := ih b (pSub1 b q) (d * k) (curr + 1) I1 j (by omega) e2
            obtain ⟨t, ht⟩ := hb
            refine hchild 0 (by omega) t ?_
            simpa using ht
        · exact hchain (List.range' 1 (k - 2)) I2
            (fun y hy => by
              have := List.mem_range'_1.mp hy
              omega) e3
      · have hb := ih (pAdd1 b (q * (k - 1))) e (d * k + (k - 1) * (k - 1)) (curr + 1) I3 j
          (by omega) e4
        obtain ⟨t, ht⟩ := hb
        exact hchild (k - 1) (by omega) t ht

theorem mul_pred_add (a P : Nat) (hP : 1 ≤ P) : a * (P - 1) + a = a * P := by
  have h1 := Nat.mul_sub a P 1
  have h2 : a * 1 = a := by ring
  have h3 : a ≤ a * P := Nat.le_mul_of_pos_right _ (by omega)
  omega

/-- Facts about the step value `q = (end - begin) / k` as computed by the
source on an in-bounds nonempty range. -/
theorem step_facts (k N : Nat) (b e : Int) (hb : 0 ≤ b) (hbe : b ≤ e)
    (he : e ≤ (N : Int) - 1) (hN : N ≤ 2 ^ 30) :
    ((u64 (e - b) / k : Nat) : Int) = stepN k b e ∧
    ((u64 (e - b) / k : Nat) : Int) * k ≤ e - b ∧
    (0 : Int) ≤ ((u64 (e - b) / k : Nat) : Int) := by
  have h1 : u64 (e - b) = (e - b).toNat := u64_small _ (by omega) (by omega)
  refine ⟨by rw [stepN, h1], ?_, by positivity⟩
  rw [h1]
  have h2 : (e - b).toNat / k * k ≤ (e - b).toNat := Nat.div_mul_le_self _ _
  omega

/-- The wrapped child-range arguments that the source passes coincide with the
plain child-range formulas on an in-bounds nonempty range. -/
theorem child_args (k N : Nat) (b e : Int) (hk : 2 ≤ k) (hb : 0 ≤ b) (hbe : b ≤ e)
    (he : e ≤ (N : Int) - 1) (hN : N ≤ 2 ^ 30) :
    pSub1 b (u64 (e - b) / k) = childE k b e 0 ∧
    (∀ i : Nat, 1 ≤ i → i < k → pAdd1 b (u64 (e - b) / k * i) = childB k b e i) ∧
    (∀ i : Nat, i < k - 1 → pSub1 b (u64 (e - b) / k * (i + 1)) = childE k b e i) := by
  obtain ⟨hq, hqk, hq0⟩ := step_facts k N b e hb hbe he hN
  set q : Nat := u64 (e - b) / k with hqdef
  have hmul : ∀ m : Nat, m ≤ k → ((q * m : Nat) : Int) ≤ e - b := by
    intro m hm
    have h1 : ((q * m : Nat) : Int) = (q : Int) * m := by push_cast; ring
    have h2 : (q : Int) * m ≤ (q : Int) * k := by
      apply mul_le_mul_of_nonneg_left _ hq0
      exact_mod_cast hm
    omega
  refine ⟨?_, ?_, ?_⟩
  · rw [pSub1_eq b q hb (by have := hmul 1 (by omega); push_cast at this; omega)]
    rw [childE_mid k b e 0 (by omega)]
    push_cast
    rw [hq]
    ring
  · intro i h1 h2
    rw [pAdd1_eq b (q * i) hb (by have := hmul i (by omega); omega)]
    rw [childB_pos k b e i (by omega)]
    have h3 : ((q * i : Nat) : Int) = stepN k b e * i := by push_cast; rw [hq]
    omega
  · intro i h1
    rw [pSub1_eq b (q * (i + 1)) hb (by have := hmul (i + 1) (by omega); omega)]
    rw [childE_mid k b e i (by omega)]
    have h3 : ((q * (i + 1) : Nat) : Int) = stepN k b e * (i + 1) := by push_cast; rw [hq]
    omega

theorem cilint_pivot (C : Array Entry) (k L N : Nat) (hk : 2 ≤ k) (hN : N ≤ 2 ^ 30) :
    ∀ (f : Nat) (c d : Nat) (b e : Int) (I : Array (Option Nat)), L - c ≤ f →
      NInv N k L c d b e → I.size = k ^ L - 1 →
      ∀ (c2 d2 : Nat) (b2 e2 : Int), NodeFrom k L c d b e c2 d2 b2 e2 →
      ∀ (i : Nat), i < k - 1 →
        (construct_inner_layers_internal C k L b e (k ^ c - 1) d c I).getD
          (k ^ c2 - 1 + d2 + i) none
        = some ((C.getD (b2 + stepN k b2 e2 * (i + 1)).toNat dEntry).key_) := by
  intro f
  induction f with
  | zero =>
    intro c d b e I hf inv
    exact absurd inv.hc (by omega)
  | succ n ih =>
    intro c d b e I hf inv hsz c2 d2 b2 e2 hnode i hi
    have hbe : b ≤ e := inv.nonempty hk
    have hb0 : 0 ≤ b := inv.hb
    have he1 : e ≤ (N : Int) - 1 := inv.he
    obtain ⟨hq, hqk, hq0⟩ := step_facts k N b e hb0 hbe he1 hN
    obtain ⟨hca1, hca2, hca3⟩ := child_args k N b e hk hb0 hbe he1 hN
    -- the value the node loop writes into its own slot i2, for the node itself
    have hmulbd : ∀ (i2 : Nat), i2 < k - 1 →
        ((u64 (e - b) / k * (i2 + 1) : Nat) : Int) ≤ e - b := by
      intro i2 hi2
      have h2 : ((u64 (e - b) / k * (i2 + 1) : Nat) : Int) =
          ((u64 (e - b) / k : Nat) : Int) * (i2 + 1) := by push_cast; ring
      have h3 : ((u64 (e - b) / k : Nat) : Int) * (i2 + 1) ≤
          ((u64 (e - b) / k : Nat) : Int) * k := by
        apply mul_le_mul_of_nonneg_left _ hq0
        exact_mod_cast by omega
      omega
    have hownval : ∀ (i2 : Nat), i2 < k - 1 →
        (writeLoop C b (u64 (e - b) / k) (k ^ c - 1 + d) 0 (k - 1) I).getD
          (k ^ c - 1 + d + i2) none =
        some ((C.getD (b + stepN k b e * (i2 + 1)).toNat dEntry).key_) := by
      intro i2 hi2
      have hsl : k ^ c - 1 + d + i2 < k ^ L - 1 := by
        have h3 := slot_lt_next_layer k c d i2 hk inv.hd hi2
        have h4 : k ^ (c + 1) ≤ k ^ L := pow_le_pow_layer k _ _ hk (by have := inv.hc; omega)
        omega
      have hIn : k ^ c - 1 + d + i2 < I.size := by rw [hsz]; omega
      rw [writeLoop_getD_in C b _ (k ^ c - 1 + d) (k - 1) 0 I i2 (by omega) (by omega) hIn]
      have hxy : ((u64 (e - b) / k * (i2 + 1) : Nat) : Int) = stepN k b e * (i2 + 1) := by
        rw [Nat.cast_mul, hq, Nat.cast_add, Nat.cast_one]
      have hss : (u64 b + u64 (e - b) / k * (i2 + 1)) % 2 ^ 64 =
          (b + stepN k b e * (i2 + 1)).toNat := by
        rw [idx64_eq b _ hb0 (by have := hmulbd i2 hi2; omega), hxy]
      rw [hss]
    rw [construct_inner_layers_internal]
    split_ifs with h1 h2
    · omega
    · -- terminal layer: c = L - 1, the node itself is the only reachable one
      cases hnode with
      | refl => exact hownval i hi
      | step c d b e i0 c2 d2 b2 e2 hi0 hcc hrest => omega
    · -- more layers below
      rw [base_succ_eq k c hk]
      set q : Nat := u64 (e - b) / k with hqdef
      set I1 := writeLoop C b q (k ^ c - 1 + d) 0 (k - 1) I with hI1
      set stepf := fun (J : Array (Option Nat)) (i : Nat) => construct_inner_layers_internal C k L
          (pAdd1 b (q * i)) (pSub1 b (q * (i + 1)))
          (k ^ (c + 1) - 1) (d * k + i * (k - 1)) (c + 1) J with hstepf
      have hsz1 : I1.size = k ^ L - 1 := by
        rw [hI1, writeLoop_size]
        exact hsz
      have hfoldsz : ∀ (lst : List Nat) (J : Array (Option Nat)),
          ((lst.foldl stepf J).size = J.size) := by
        intro lst
        induction lst with
        | nil => intro J; rfl
        | cons x xs ihx =>
          intro J
          rw [List.foldl_cons, ihx, hstepf]
          exact cilint_size C k L L _ _ _ _ _ _ (by omega)
      have hub : ∀ i2 : Nat, i2 < k → d * k + i2 * (k - 1) + (k - 1) ≤ (k - 1) * k ^ (c + 1) := by
        intro i2 h2
        have h3 := (inv.child hk (by omega) i2 h2).hd
        have h4 := mul_pred_add (k - 1) (k ^ (c + 1)) (Nat.one_le_pow _ _ (by omega))
        omega
      cases hnode with
      | refl =>
        -- the slot of the node itself survives all child runs
        have hsl2 : k ^ c - 1 + d + i < k ^ (c + 1) - 1 := slot_lt_next_layer k c d i hk inv.hd hi
        have hkeep : ∀ (d' : Nat) (bb ee : Int) (J : Array (Option Nat)),
            (construct_inner_layers_internal C k L bb ee (k ^ (c + 1) - 1) d' (c + 1) J).getD
              (k ^ c - 1 + d + i) none = J.getD (k ^ c - 1 + d + i) none := by
          intro d' bb ee J
          by_contra hx
          obtain ⟨t, ht⟩ := cilint_frame C k L hk L bb ee d' (c + 1) J _ (by omega) hx
          have h3 := ht.1
          have h4 : k ^ (c + 1) ≤ k ^ (c + 1 + t) := pow_le_pow_layer k _ _ hk (by omega)
          omega
        have hfoldkeep : ∀ (lst : List Nat) (J : Array (Option Nat)),
            ((lst.foldl stepf J).getD (k ^ c - 1 + d + i) none = J.getD (k ^ c - 1 + d + i) none) := by
          intro lst
          induction lst with
          | nil => intro J; rfl
          | cons x xs ihx =>
            intro J
            rw [List.foldl_cons, ihx, hstepf]
            exact hkeep _ _ _ _
        rw [hkeep, hfoldkeep, hkeep]
        exact hownval i hi
      | step c d b e i0 c2 d2 b2 e2 hi0 hcc hrest =>
        -- the slot lives in the subtree of child i0
        have hslotband := NodeFrom.slot_band hk hrest i hi
        have hkeepafter : ∀ (i' : Nat), i0 < i' → i' < k → ∀ (bb ee : Int)
            (J : Array (Option Nat)),
            (construct_inner_layers_internal C k L bb ee (k ^ (c + 1) - 1)
              (d * k + i' * (k - 1)) (c + 1) J).getD (k ^ c2 - 1 + d2 + i) none =
            J.getD (k ^ c2 - 1 + d2 + i) none := by
          intro i' hgt hlt bb ee J
          by_contra hx
          obtain ⟨t, ht⟩ := cilint_frame C k L hk L bb ee _ (c + 1) J _ (by omega) hx
          refine band_disjoint k (c + 1) (c2 - (c + 1)) t (d * k + i0 * (k - 1))
            (d * k + i' * (k - 1)) _ hk ?_ (hub i0 hi0) (hub i' hlt) hslotband ht
          have h3 : (i0 + 1) * (k - 1) ≤ i' * (k - 1) := Nat.mul_le_mul_right _ (by omega)
          have h4 : (i0 + 1) * (k - 1) = i0 * (k - 1) + (k - 1) := by ring
          omega
        -- the invariants for child i0 and the reachability within it
        have hinvc : NInv N k L (c + 1) (d * k + i0 * (k - 1)) (childB k b e i0)
            (childE k b e i0) := inv.child hk (by omega) i0 hi0
        rcases Nat.eq_zero_or_pos i0 with rfl | hi0pos
        · -- first child: computed in stage I2, preserved afterwards
          have hrest2 : NodeFrom k L (c + 1) (d * k) b (childE k b e 0) c2 d2 b2 e2 := by
            have hcb : childB k b e 0 = b := childB_zero k b e
            rw [hcb] at hrest
            simpa using hrest
          have hIH := ih (c + 1) (d * k) b (childE k b e 0) I1 (by omega)
            (by simpa using hinvc) hsz1 c2 d2 b2 e2 hrest2 i hi
          have hI2 : construct_inner_layers_internal C k L b (pSub1 b q)
              (k ^ (c + 1) - 1) (d * k) (c + 1) I1 =
              construct_inner_layers_internal C k L b (childE k b e 0)
              (k ^ (c + 1) - 1) (d * k) (c + 1) I1 := by
            rw [hca1]
          have hfoldkeep : ∀ (lst : List Nat) (J : Array (Option Nat)),
              (∀ y ∈ lst, 1 ≤ y ∧ y < k) →
              ((lst.foldl stepf J).getD (k ^ c2 - 1 + d2 + i) none =
                J.getD (k ^ c2 - 1 + d2 + i) none) := by
            intro lst
            induction lst with
            | nil => intro J _; rfl
            | cons x xs ihx =>
              intro J hmem
              rw [List.foldl_cons, ihx _ (fun y hy => hmem y (by simp [hy])), hstepf]
              exact hkeepafter x (hmem x (by simp)).1 (hmem x (by simp)).2 _ _ _
          rw [hkeepafter (k - 1) (by omega) (by omega), hfoldkeep _ _
            (fun y hy => by
              have := List.mem_range'_1.mp hy
              omega), hI2, hIH]
        · rcases Nat.lt_or_ge i0 (k - 1) with hi0mid | hi0last
          · -- middle child: computed inside the fold, preserved afterwards
            have hrest2 : NodeFrom k L (c + 1) (d * k + i0 * (k - 1)) (childB k b e i0)
                (childE k b e i0) c2 d2 b2 e2 := hrest
            have hloc : ∀ (m s : Nat) (J : Array (Option Nat)), 1 ≤ s → s ≤ i0 → i0 < s + m →
                s + m ≤ k - 1 → J.size = k ^ L - 1 →
                (((List.range' s m).foldl stepf J).getD (k ^ c2 - 1 + d2 + i) none =
                  some ((C.getD (b2 + stepN k b2 e2 * (i + 1)).toNat dEntry).key_)) := by
              intro m
              induction m with
              | zero => intro s J _ _ _ _ _; omega
              | succ mm ihm =>
                intro s J hs1 hsi him hsm hJsz
                rw [List.range'_succ, List.foldl_cons]
                by_cases hseq : s = i0
                · subst hseq
                  have hIH := ih (c + 1) (d * k + s * (k - 1)) (childB k b e s)
                    (childE k b e s) J (by omega) hinvc hJsz c2 d2 b2 e2 hrest2 i hi
                  have hstep2 : stepf J s = construct_inner_layers_internal C k L
                      (childB k b e s) (childE k b e s) (k ^ (c + 1) - 1)
                      (d * k + s * (k - 1)) (c + 1) J := by
                    simp only [hstepf]
                    rw [hca2 s (by omega) (by omega), hca3 s (by omega)]
                  have hpres2 : ∀ (lst2 : List Nat) (J2 : Array (Option Nat)),
                      (∀ y ∈ lst2, s < y ∧ y < k) →
                      ((lst2.foldl stepf J2).getD (k ^ c2 - 1 + d2 + i) none =
                        J2.getD (k ^ c2 - 1 + d2 + i) none) := by
                    intro lst2
                    induction lst2 with
                    | nil => intro J2 _; rfl
                    | cons y ys ihy =>
                      intro J2 hmem
                      rw [List.foldl_cons, ihy _ (fun z hz => hmem z (by simp [hz])), hstepf]
                      exact hkeepafter y (hmem y (by simp)).1 (hmem y (by simp)).2 _ _ _
                  rw [hpres2 _ _ (fun y hy => by
                    have := List.mem_range'_1.mp hy
                    omega), hstep2, hIH]
                · have hJsz2 : (stepf J s).size = k ^ L - 1 := by
                    rw [hstepf]
                    rw [cilint_size C k L L _ _ _ _ _ _ (by omega)]
                    exact hJsz
                  exact ihm (s + 1) (stepf J s) (by omega) (by omega) (by omega) (by omega) hJsz2
            rw [hkeepafter (k - 1) (by omega) (by omega)]
            exact hloc (k - 2) 1 _ (by omega) (by omega) (by omega) (by omega)
              (by rw [cilint_size C k L L _ _ _ _ _ _ (by omega)]; exact hsz1)
          · -- last child: computed in the final stage
            have hi0eq : i0 = k - 1 := by omega
            subst hi0eq
            have hI3sz : ((List.range' 1 (k - 2)).foldl stepf
                (construct_inner_layers_internal C k L b (pSub1 b q) (k ^ (c + 1) - 1)
                  (d * k) (c + 1) I1)).size = k ^ L - 1 := by
              rw [hfoldsz, cilint_size C k L L _ _ _ _ _ _ (by omega)]
              exact hsz1
            have hIH := ih (c + 1) (d * k + (k - 1) * (k - 1)) (childB k b e (k - 1))
              (childE k b e (k - 1)) _ (by omega) hinvc hI3sz c2 d2 b2 e2 hrest i hi
            rw [childE_last k b e (k - 1) rfl, ← hca2 (k - 1) (by omega) (by omega)] at hIH
            exact hIH

/-- Every position of the pivot array decodes as slot `i` of node `n` of some
inner layer `c`. -/
theorem layer_decomp (k : Nat) (hk : 2 ≤ k) :
    ∀ (L : Nat) (j : Nat), j < k ^ L - 1 →
      ∃ c n i, c < L ∧ n < k ^ c ∧ i < k - 1 ∧ j = k ^ c - 1 + n * (k - 1) + i := by
  intro L
  induction L with
  | zero => intro j hj; simp at hj
  | succ m ihm =>
    intro j hj
    rcases Nat.lt_or_ge j (k ^ m - 1) with hlt | hge
    · obtain ⟨c, n, i, h1, h2, h3, h4⟩ := ihm j hlt
      exact ⟨c, n, i, by omega, h2, h3, h4⟩
    · refine ⟨m, (j - (k ^ m - 1)) / (k - 1), (j - (k ^ m - 1)) % (k - 1), by omega, ?_, ?_, ?_⟩
      · have h1 : j - (k ^ m - 1) < k ^ m * (k - 1) := by
          have h2 : k ^ (m + 1) = k ^ m * k := pow_succ k m
          have h3 : k ^ m * (k - 1) = k ^ m * k - k ^ m := by
            rw [Nat.mul_sub]
            omega
          have h4 : 1 ≤ k ^ m := Nat.one_le_pow _ _ (by omega)
          omega
        have h2 : (j - (k ^ m - 1)) / (k - 1) < k ^ m := by
          apply Nat.div_lt_of_lt_mul
          calc j - (k ^ m - 1) < k ^ m * (k - 1) := h1
            _ = (k - 1) * k ^ m := by ring
        exact h2
      · exact Nat.mod_lt _ (by omega)
      · have h5 := Nat.div_add_mod (j - (k ^ m - 1)) (k - 1)
        have h6 : (k - 1) * ((j - (k ^ m - 1)) / (k - 1)) =
            ((j - (k ^ m - 1)) / (k - 1)) * (k - 1) := by ring
        omega

/-- Every slot group of every inner layer is reachable from the root. -/
theorem node_exists (k L N : Nat) (hk : 2 ≤ k) :
    ∀ (c : Nat), c < L → ∀ (n : Nat), n < k ^ c →
      ∃ b2 e2, NodeFrom k L 0 0 0 ((N : Int) - 1) c (n * (k - 1)) b2 e2 := by
  intro c
  induction c with
  | zero =>
    intro _ n hn
    have hn0 : n = 0 := by simpa using hn
    subst hn0
    exact ⟨0, (N : Int) - 1, by simpa using NodeFrom.refl 0 0 0 ((N : Int) - 1)⟩
  | succ m ihm =>
    intro hc n hn
    obtain ⟨b2, e2, hNF⟩ := ihm (by omega) (n / k)
      (Nat.div_lt_of_lt_mul (by rw [← pow_succ']; omega))
    have hx := hNF.extend (n % k) (Nat.mod_lt n (by omega)) (by omega)
    have harith : n / k * (k - 1) * k + n % k * (k - 1) = n * (k - 1) := by
      have h := Nat.div_add_mod n k
      have h2 : n / k * (k - 1) * k = k * (n / k) * (k - 1) := by ring
      have h3 : n * (k - 1) = (k * (n / k) + n % k) * (k - 1) := by rw [h]
      have h4 : (k * (n / k) + n % k) * (k - 1) = k * (n / k) * (k - 1) + n % k * (k - 1) := by
        ring
      omega
    rw [harith] at hx
    exact ⟨_, _, hx⟩

/-! ## The sorted snapshot -/

/-- The entries of a list are pairwise sorted by key. -/
def SortedKeys (l : List Entry) : Prop := l.Pairwise (fun a b => a.key_ ≤ b.key_)

theorem mem_insertSorted (en y : Entry) :
    ∀ (l : List Entry), y ∈ insertSorted en l → y = en ∨ y ∈ l := by
  intro l
  induction l with
  | nil => intro h; simpa [insertSorted] using h
  | cons x xs ihx =>
    intro h
    rw [insertSorted] at h
    split_ifs at h with hle
    · rcases List.mem_cons.mp h with h2 | h2
      · right; simp [h2]
      · rcases ihx h2 with h3 | h3
        · left; exact h3
        · right; simp [h3]
    · rcases List.mem_cons.mp h with h2 | h2
      · left; exact h2
      · right; exact h2

theorem insertSorted_sorted (en : Entry) :
    ∀ (l : List Entry), SortedKeys l → SortedKeys (insertSorted en l) := by
  intro l
  induction l with
  | nil => intro _; simp [insertSorted, SortedKeys]
  | cons x xs ihx =>
    intro hs
    unfold SortedKeys at hs
    rw [List.pairwise_cons] at hs
    rw [insertSorted]
    split_ifs with hle
    · unfold SortedKeys
      rw [List.pairwise_cons]
      constructor
      · intro y hy
        rcases mem_insertSorted en y xs hy with rfl | h2
        · exact hle
        · exact hs.1 y h2
      · exact ihx hs.2
    · unfold SortedKeys
      rw [List.pairwise_cons]
      constructor
      · intro y hy
        rcases List.mem_cons.mp hy with rfl | h2
        · omega
        · have := hs.1 y h2
          omega
      · rw [List.pairwise_cons]
        exact hs

theorem project_sorted_sortedKeys (table : List Entry) :
    SortedKeys (table.foldl (fun acc en => insertSorted en acc) []) := by
  have hgen : ∀ (l : List Entry) (acc : List Entry), SortedKeys acc →
      SortedKeys (l.foldl (fun acc en => insertSorted en acc) acc) := by
    intro l
    induction l with
    | nil => intro acc h; exact h
    | cons x xs ihx =>
      intro acc h
      rw [List.foldl_cons]
      exact ihx _ (insertSorted_sorted x acc h)
  exact hgen table [] (by unfold SortedKeys; exact List.Pairwise.nil)

/-- Sortedness of the snapshot array, in subscript form. -/
theorem project_sorted_le (table : List Entry) (p q : Nat) (hpq : p ≤ q)
    (hq : q < (project_sorted table).size) :
    ((project_sorted table).getD p dEntry).key_ ≤ ((project_sorted table).getD q dEntry).key_ := by
  rcases Nat.eq_or_lt_of_le hpq with rfl | hlt
  · omega
  · unfold project_sorted at hq ⊢
    rw [Array.size_toArray] at hq
    have hs := project_sorted_sortedKeys table
    unfold SortedKeys at hs
    rw [List.pairwise_iff_getElem] at hs
    have h2 := hs p q (by omega) hq hlt
    rw [Array.getD_eq_get?, Array.getD_eq_get?, List.getElem?_toArray, List.getElem?_toArray]
    rw [List.getElem?_eq_getElem (by omega), List.getElem?_eq_getElem hq]
    exact h2

/-- The construction leaves the size of the pivot array unchanged. -/
theorem construct_inner_layers_size (C : Array Entry) (k L : Nat) (I : Array (Option Nat)) :
    (construct_inner_layers C k L I).size = I.size := by
  rw [construct_inner_layers]
  split_ifs with h1 h2
  · rfl
  · exact writeLoop_size C 0 _ 0 (k - 1) 0 I
  · rw [cilint_size C k L L _ _ _ _ _ _ (by omega)]
    have hfold : ∀ (lst : List Nat) (J : Array (Option Nat)),
        ((lst.foldl (fun J i => construct_inner_layers_internal C k L
            (pAdd1 0 ((C.size + (2 ^ 64 - 1)) % 2 ^ 64 / k * i))
            (pSub1 0 ((C.size + (2 ^ 64 - 1)) % 2 ^ 64 / k * (i + 1)))
            (k - 1) (i * (k - 1)) 1 J) J).size = J.size) := by
      intro lst
      induction lst with
      | nil => intro J; rfl
      | cons x xs ihx =>
        intro J
        rw [List.foldl_cons, ihx, cilint_size C k L L _ _ _ _ _ _ (by omega)]
    rw [hfold, cilint_size C k L L _ _ _ _ _ _ (by omega),
      writeLoop_size C 0 _ 0 (k - 1) 0 I]

/-- The inlined layer 0 of `construct_inner_layers` is exactly the generic
recursion at the root node. -/
theorem construct_top (C : Array Entry) (k L : Nat) (I : Array (Option Nat)) (hk : 2 ≤ k)
    (hL : 1 ≤ L) (hN1 : 1 ≤ C.size) (hN : C.size ≤ 2 ^ 30) :
    construct_inner_layers C k L I =
      construct_inner_layers_internal C k L 0 ((C.size : Int) - 1) 0 0 0 I := by
  have he64 : (C.size + (2 ^ 64 - 1)) % 2 ^ 64 = C.size - 1 := by omega
  have hu : u64 ((C.size : Int) - 1 - 0) = C.size - 1 := by
    rw [u64_small _ (by omega) (by omega)]
    omega
  have hi32e : i32 (C.size - 1) = (C.size : Int) - 1 := by
    rw [i32_small _ (by omega)]
    omega
  rw [construct_inner_layers, construct_inner_layers_internal,
    if_neg (by omega : ¬ L = 0), if_neg (by omega : ¬ (0 : Int) > (C.size : Int) - 1),
    hu, he64]
  by_cases hL1 : L = 1
  · simp only [if_pos hL1, dif_pos (show L ≤ 0 + 1 by omega)]
  · simp only [if_neg hL1, dif_neg (show ¬ L ≤ 0 + 1 by omega)]
    norm_num [hi32e]

/-- The inlined layer 0 of `find_inner_layers` is exactly the generic descent
at the root node. -/
theorem find_top (st : KAryIndex) (key : Nat) (hL : 1 ≤ st.num_layers_)
    (hN1 : 1 ≤ st.size_) (hN : st.size_ ≤ 2 ^ 30) :
    find_inner_layers st key =
      find_inner_layers_internal st key 0 ((st.size_ : Int) - 1) 0 0 0 := by
  have hi32e : i32 ((st.size_ + (2 ^ 64 - 1)) % 2 ^ 64) = (st.size_ : Int) - 1 := by
    have he64 : (st.size_ + (2 ^ 64 - 1)) % 2 ^ 64 = st.size_ - 1 := by omega
    rw [he64, i32_small _ (by omega)]
    omega
  rw [find_inner_layers, find_inner_layers_internal,
    if_neg (by omega : ¬ st.num_layers_ = 0), if_neg (by omega : ¬ st.num_layers_ ≤ 0),
    hi32e]
  simp only [Nat.zero_add, Nat.add_zero, Nat.zero_mul, Nat.mul_zero, Nat.one_mul]
  cases hfq : firstEqAux st key 0 (st.k_ - 1) with
  | none => rfl
  | some oi =>
    cases oi with
    | some i => rfl
    | none =>
      cases hfl : firstLtAux st key 0 (st.k_ - 1) with
      | none => rfl
      | some i =>
        by_cases h1 : i = 0
        · simp [h1]
        · by_cases h2 : i = st.k_ - 1
          · simp [h1, h2]
          · simp [h1, h2]

/-! ## States produced by a successful rebuild -/

/-- The facts a successful `reorganize` establishes about the resulting index
state (the configuration `k ≥ 2` is enforced by the constructor of the class
and is carried separately). -/
structure Valid (st : KAryIndex) : Prop where
  hk : 2 ≤ st.k_
  hM : st.k_ ^ st.num_layers_ - 1 < st.size_
  hsorted : ∀ p q : Nat, p ≤ q → q < st.size_ → keyAt st p ≤ keyAt st q
  hmin : st.key_min_ = keyAt st 0
  hmax : st.key_max_ = keyAt st (st.size_ - 1)
  hIdef : st.num_layers_ ≠ 0 →
    st.inner_nodes_ = construct_inner_layers st.container_ st.k_ st.num_layers_
      (Array.mkArray (st.k_ ^ st.num_layers_ - 1) none)

theorem Valid.hN1 {st : KAryIndex} (v : Valid st) : 1 ≤ st.size_ := by
  have := v.hM
  omega

theorem Valid.hIsz {st : KAryIndex} (v : Valid st) :
    st.num_layers_ ≠ 0 → st.inner_nodes_.size = st.k_ ^ st.num_layers_ - 1 := by
  intro hL
  rw [v.hIdef hL, construct_inner_layers_size, Array.size_mkArray]

/-- Field-level description of a successful `reorganize`. -/
theorem reorganize_success_fields (st0 st : KAryIndex) (h : reorganize st0 = (st, false)) :
    st.table = st0.table ∧ st.container_ = project_sorted st0.table ∧
    st.num_layers_ = st0.num_layers_ ∧ st.k_ = st0.k_ ∧
    st.key_min_ = ((project_sorted st0.table).getD 0 dEntry).key_ ∧
    st.key_max_ =
      ((project_sorted st0.table).getD ((project_sorted st0.table).size - 1) dEntry).key_ ∧
    st0.k_ ^ st0.num_layers_ - 1 < (project_sorted st0.table).size ∧
    st.inner_nodes_ = (if st0.num_layers_ ≠ 0 then
      construct_inner_layers (project_sorted st0.table) st0.k_ st0.num_layers_
        (Array.mkArray (st0.k_ ^ st0.num_layers_ - 1) none) else #[]) := by
  rw [reorganize] at h
  split_ifs at h with h1 h2
  · refine ⟨?_, ?_, ?_, ?_, ?_, ?_, h1, ?_⟩
    · simpa using (congrArg (fun p => (Prod.fst p).table) h).symm
    · simpa using (congrArg (fun p => (Prod.fst p).container_) h).symm
    · simpa using (congrArg (fun p => (Prod.fst p).num_layers_) h).symm
    · simpa using (congrArg (fun p => (Prod.fst p).k_) h).symm
    · simpa using (congrArg (fun p => (Prod.fst p).key_min_) h).symm
    · simpa using (congrArg (fun p => (Prod.fst p).key_max_) h).symm
    · rw [if_pos h2]
      simpa using (congrArg (fun p => (Prod.fst p).inner_nodes_) h).symm
  · refine ⟨?_, ?_, ?_, ?_, ?_, ?_, h1, ?_⟩
    · simpa using (congrArg (fun p => (Prod.fst p).table) h).symm
    · simpa using (congrArg (fun p => (Prod.fst p).container_) h).symm
    · simpa using (congrArg (fun p => (Prod.fst p).num_layers_) h).symm
    · simpa using (congrArg (fun p => (Prod.fst p).k_) h).symm
    · simpa using (congrArg (fun p => (Prod.fst p).key_min_) h).symm
    · simpa using (congrArg (fun p => (Prod.fst p).key_max_) h).symm
    · rw [if_neg h2]
      simpa using (congrArg (fun p => (Prod.fst p).inner_nodes_) h).symm
  · exact absurd (congrArg Prod.snd h) (by simp)

/-- A successful `reorganize` yields a valid state. -/
theorem reorganize_valid (st0 st : KAryIndex) (hk : 2 ≤ st0.k_)
    (h : reorganize st0 = (st, false)) : Valid st := by
  obtain ⟨htab, hc, hL, hkk, hmin, hmax, hM, hI⟩ := reorganize_success_fields st0 st h
  have hsz : st.size_ = (project_sorted st0.table).size := by
    rw [KAryIndex.size_, hc]
  refine ⟨by omega, by rw [hkk, hL, hsz]; exact hM, ?_, ?_, ?_, ?_⟩
  · intro p q hpq hq
    rw [keyAt, keyAt, hc]
    exact project_sorted_le st0.table p q hpq (by rw [← hsz]; exact hq)
  · rw [hmin, keyAt, hc]
  · rw [hmax, keyAt, hc, hsz]
  · intro hL0
    rw [hI, if_pos (by omega : ¬ st0.num_layers_ = 0), hc, hL, hkk]

/-- In a valid layered state, every reachable tree node finds its pivot keys
in the pivot array exactly where the construction put them. -/
theorem valid_pivot (st : KAryIndex) (v : Valid st) (hN : st.size_ ≤ 2 ^ 30)
    (hL : 1 ≤ st.num_layers_) :
    ∀ (c2 d2 : Nat) (b2 e2 : Int),
      NodeFrom st.k_ st.num_layers_ 0 0 0 ((st.size_ : Int) - 1) c2 d2 b2 e2 →
      ∀ (i : Nat), i < st.k_ - 1 →
        st.inner_nodes_.getD (st.k_ ^ c2 - 1 + d2 + i) none =
        some ((st.container_.getD (b2 + stepN st.k_ b2 e2 * (i + 1)).toNat dEntry).key_) := by
  intro c2 d2 b2 e2 hnode i hi
  have hksz : st.container_.size = st.size_ := rfl
  have hroot : NInv st.size_ st.k_ st.num_layers_ 0 0 0 ((st.size_ : Int) - 1) := by
    refine ⟨by omega, by omega, by omega, ?_, by omega⟩
    have h1 : ((st.k_ ^ st.num_layers_ : Nat) : Int) = (st.k_ : Int) ^ st.num_layers_ :=
      pow_cast_comm _ _
    have h2 := v.hM
    have h3 : (st.k_ : Int) ≥ 1 := by have := v.hk; exact_mod_cast by omega
    simp only [Nat.sub_zero]
    omega
  rw [v.hIdef (by omega),
    construct_top st.container_ st.k_ st.num_layers_ _ v.hk hL (by rw [hksz]; exact v.hN1)
      (by rw [hksz]; exact hN)]
  have h4 := cilint_pivot st.container_ st.k_ st.num_layers_ st.size_ v.hk hN
    st.num_layers_ 0 0 0 ((st.size_ : Int) - 1)
    (Array.mkArray (st.k_ ^ st.num_layers_ - 1) none) (by omega) hroot
    (by rw [Array.size_mkArray]) c2 d2 b2 e2 hnode i hi
  simpa [hksz] using h4

/-! ## The descent -/

/-- Behavior of the equality scan when every tested slot holds a known value. -/
theorem firstEqAux_spec (st : KAryIndex) (key : Nat) (vals : Nat → Nat) :
    ∀ (cnt j : Nat), (∀ t, t < cnt → st.inner_nodes_.getD (j + t) none = some (vals t)) →
      (firstEqAux st key j cnt = some none ∧ ∀ t, t < cnt → vals t ≠ key) ∨
      (∃ i, i < cnt ∧ firstEqAux st key j cnt = some (some i) ∧ vals i = key ∧
        ∀ t, t < i → vals t ≠ key) := by
  intro cnt
  induction cnt generalizing vals with
  | zero =>
    intro j _
    left
    exact ⟨rfl, by omega⟩
  | succ n ihn =>
    intro j hreads
    have h0 : st.inner_nodes_.getD j none = some (vals 0) := by
      have := hreads 0 (by omega)
      simpa using this
    have hreads2 : ∀ t, t < n → st.inner_nodes_.getD (j + 1 + t) none =
        some ((fun t => vals (t + 1)) t) := by
      intro t ht
      have := hreads (t + 1) (by omega)
      rw [show j + (t + 1) = j + 1 + t by omega] at this
      exact this
    by_cases hkey : key = vals 0
    · right
      refine ⟨0, by omega, ?_, hkey.symm, by omega⟩
      rw [firstEqAux, h0]
      simp [hkey]
    · rcases ihn (fun t => vals (t + 1)) (j + 1) hreads2 with ⟨heq, hall⟩ | ⟨i, hi, heq, hv, hprev⟩
      · left
        constructor
        · rw [firstEqAux, h0]
          simp [hkey, heq]
        · intro t ht
          rcases Nat.eq_zero_or_pos t with rfl | htp
          · exact fun h2 => hkey h2.symm
          · have := hall (t - 1) (by omega)
            simpa [Nat.sub_add_cancel htp] using this
      · right
        refine ⟨i + 1, by omega, ?_, hv, ?_⟩
        · rw [firstEqAux, h0]
          simp [hkey, heq]
        · intro t ht
          rcases Nat.eq_zero_or_pos t with rfl | htp
          · exact fun h2 => hkey h2.symm
          · have := hprev (t - 1) (by omega)
            simpa [Nat.sub_add_cancel htp] using this

/-- Behavior of the child-selection scan when every tested slot holds a known
value. -/
theorem firstLtAux_spec (st : KAryIndex) (key : Nat) (vals : Nat → Nat) :
    ∀ (cnt j : Nat), (∀ t, t < cnt → st.inner_nodes_.getD (j + t) none = some (vals t)) →
      ∃ i, i ≤ cnt ∧ firstLtAux st key j cnt = some i ∧
        (∀ t, t < i → ¬ key < vals t) ∧ (i < cnt → key < vals i) := by
  intro cnt
  induction cnt generalizing vals with
  | zero =>
    intro j _
    exact ⟨0, by omega, rfl, by omega, by omega⟩
  | succ n ihn =>
    intro j hreads
    have h0 : st.inner_nodes_.getD j none = some (vals 0) := by
      have := hreads 0 (by omega)
      simpa using this
    have hreads2 : ∀ t, t < n → st.inner_nodes_.getD (j + 1 + t) none =
        some ((fun t => vals (t + 1)) t) := by
      intro t ht
      have := hreads (t + 1) (by omega)
      rw [show j + (t + 1) = j + 1 + t by omega] at this
      exact this
    by_cases hkey : key < vals 0
    · refine ⟨0, by omega, ?_, by omega, fun _ => hkey⟩
      rw [firstLtAux, h0]
      simp [hkey]
    · obtain ⟨i, hile, heq, hprev, hcur⟩ := ihn (fun t => vals (t + 1)) (j + 1) hreads2
      refine ⟨i + 1, by omega, ?_, ?_, fun h2 => hcur (by omega)⟩
      · rw [firstLtAux, h0]
        simp [hkey, heq]
      · intro t ht
        rcases Nat.eq_zero_or_pos t with rfl | htp
        · exact hkey
        · have := hprev (t - 1) (by omega)
          simpa [Nat.sub_add_cancel htp] using this

/-- One descent step at a terminal layer. -/
theorem fint_terminal (st : KAryIndex) (key : Nat) (b e : Int) (base dst curr : Nat)
    (hc : st.num_layers_ ≤ curr) :
    find_inner_layers_internal st key b e base dst curr = some (b, e) := by
  rw [find_inner_layers_internal, if_pos hc]

/-- One descent step on a pivot hit. -/
theorem fint_step_eq (st : KAryIndex) (key : Nat) (b e : Int) (base dst curr i : Nat)
    (hc : ¬ st.num_layers_ ≤ curr)
    (heq : firstEqAux st key (base + dst) (st.k_ - 1) = some (some i)) :
    find_inner_layers_internal st key b e base dst curr =
      some (pAdd0 b (u64 (e - b) / st.k_ * (i + 1)), pAdd0 b (u64 (e - b) / st.k_ * (i + 1))) := by
  rw [find_inner_layers_internal, if_neg hc, heq]

/-- One descent step into the selected child. -/
theorem fint_step_sel (st : KAryIndex) (key : Nat) (b e : Int) (base dst curr i : Nat)
    (hc : ¬ st.num_layers_ ≤ curr)
    (heq : firstEqAux st key (base + dst) (st.k_ - 1) = some none)
    (hlt : firstLtAux st key (base + dst) (st.k_ - 1) = some i) :
    find_inner_layers_internal st key b e base dst curr =
      (if i = 0 then
        find_inner_layers_internal st key b (pSub1 b (u64 (e - b) / st.k_))
          ((base + 1) * st.k_ - 1) (dst * st.k_) (curr + 1)
      else if i = st.k_ - 1 then
        find_inner_layers_internal st key (pAdd1 b (u64 (e - b) / st.k_ * (st.k_ - 1))) e
          ((base + 1) * st.k_ - 1) (dst * st.k_ + i * (st.k_ - 1)) (curr + 1)
      else
        find_inner_layers_internal st key (pAdd1 b (u64 (e - b) / st.k_ * i))
          (pSub1 b (u64 (e - b) / st.k_ * (i + 1))) ((base + 1) * st.k_ - 1)
          (dst * st.k_ + i * (st.k_ - 1)) (curr + 1)) := by
  rw [find_inner_layers_internal, if_neg hc, heq, hlt]

/-- All snapshot positions holding the searched key lie inside `[b, e]`. -/
def OccIn (st : KAryIndex) (key : Nat) (b e : Int) : Prop :=
  ∀ p : Nat, p < st.size_ → keyAt st p = key → b ≤ (p : Int) ∧ (p : Int) ≤ e

set_option maxRecDepth 8000 in
theorem fint_descent (st : KAryIndex) (key : Nat) (v : Valid st) (hN : st.size_ ≤ 2 ^ 30)
    (hL : 1 ≤ st.num_layers_) :
    ∀ (f c d : Nat) (b e : Int), st.num_layers_ - c ≤ f →
      NInv st.size_ st.k_ st.num_layers_ c d b e →
      NodeFrom st.k_ st.num_layers_ 0 0 0 ((st.size_ : Int) - 1) c d b e →
      OccIn st key b e →
      ∃ r1 r2 : Int,
        find_inner_layers_internal st key b e (st.k_ ^ c - 1) d c = some (r1, r2) ∧
        0 ≤ r1 ∧ r2 ≤ (st.size_ : Int) - 1 ∧
        (r1 = r2 → ((∃ p : Nat, p < st.size_ ∧ keyAt st p = key) →
          r1.toNat < st.size_ ∧ keyAt st r1.toNat = key)) ∧
        (r1 ≠ r2 → OccIn st key r1 r2) := by
  intro f
  induction f with
  | zero =>
    intro c d b e hf inv _ _
    exact absurd inv.hc (by omega)
  | succ n ih =>
    intro c d b e hf inv hnode hocc
    have hk := v.hk
    have hcL := inv.hc
    have hbe : b ≤ e := inv.nonempty hk
    have hb0 : 0 ≤ b := inv.hb
    have he1 : e ≤ (st.size_ : Int) - 1 := inv.he
    obtain ⟨hq, hqk, hq0⟩ := step_facts st.k_ st.size_ b e hb0 hbe he1 hN
    obtain ⟨hca1, hca2, hca3⟩ := child_args st.k_ st.size_ b e hk hb0 hbe he1 hN
    have hmul : ∀ m : Nat, m ≤ st.k_ → stepN st.k_ b e * (m : Int) ≤ e - b := by
      intro m hm
      have h1 : stepN st.k_ b e * (m : Int) ≤ stepN st.k_ b e * (st.k_ : Int) := by
        apply mul_le_mul_of_nonneg_left _ (stepN_nonneg _ _ _)
        exact_mod_cast hm
      have h2 := stepN_mul_le st.k_ b e hbe
      omega
    have hmul2 : ∀ m : Nat, m + 1 ≤ st.k_ → stepN st.k_ b e * ((m : Int) + 1) ≤ e - b := by
      intro m hm
      have h1 : stepN st.k_ b e * ((m : Int) + 1) ≤ stepN st.k_ b e * (st.k_ : Int) := by
        apply mul_le_mul_of_nonneg_left _ (stepN_nonneg _ _ _)
        exact_mod_cast by omega
      have h2 := stepN_mul_le st.k_ b e hbe
      omega
    have hreads : ∀ t, t < st.k_ - 1 →
        st.inner_nodes_.getD ((st.k_ ^ c - 1 + d) + t) none =
        some ((fun t => keyAt st (b + stepN st.k_ b e * (t + 1)).toNat) t) := by
      intro t ht
      have h1 := valid_pivot st v hN hL c d b e hnode t ht
      unfold keyAt
      exact h1
    have hpivnat : ∀ t : Nat, t + 1 ≤ st.k_ →
        ((b + stepN st.k_ b e * ((t : Int) + 1)).toNat : Int) =
          b + stepN st.k_ b e * ((t : Int) + 1) ∧
        (b + stepN st.k_ b e * ((t : Int) + 1)).toNat < st.size_ := by
      intro t ht
      have h1 := hmul2 t ht
      have h2 : 0 ≤ stepN st.k_ b e * ((t : Int) + 1) :=
        mul_nonneg (stepN_nonneg _ _ _) (by omega)
      constructor
      · rw [Int.toNat_of_nonneg (by omega)]
      · omega
    have hpivnat0 : ∀ t : Nat, t ≤ st.k_ →
        ((b + stepN st.k_ b e * (t : Int)).toNat : Int) = b + stepN st.k_ b e * (t : Int) ∧
        (b + stepN st.k_ b e * (t : Int)).toNat ≤ st.size_ - 1 := by
      intro t ht
      have h1 := hmul t ht
      have h2 : 0 ≤ stepN st.k_ b e * (t : Int) :=
        mul_nonneg (stepN_nonneg _ _ _) (by omega)
      constructor
      · rw [Int.toNat_of_nonneg (by omega)]
      · omega
    rcases firstEqAux_spec st key (fun t => keyAt st (b + stepN st.k_ b e * (t + 1)).toNat)
      (st.k_ - 1) (st.k_ ^ c - 1 + d) hreads with ⟨heqnone, hne⟩ | ⟨i, hilt, heqsome, hveq, _⟩
    · -- no pivot equals the key: descend into the selected child
      obtain ⟨i, hile, hlteq, hltprev, hltcur⟩ := firstLtAux_spec st key
        (fun t => keyAt st (b + stepN st.k_ b e * (t + 1)).toNat)
        (st.k_ - 1) (st.k_ ^ c - 1 + d) hreads
      rw [fint_step_sel st key b e (st.k_ ^ c - 1) d c i (by omega) heqnone hlteq,
        base_succ_eq st.k_ c hk]
      have hlow : ∀ t, t < i → keyAt st (b + stepN st.k_ b e * ((t : Int) + 1)).toNat < key := by
        intro t ht
        have h1 := hltprev t ht
        have h2 := hne t (by omega)
        simp only at h1 h2
        omega
      -- occurrences lie inside the selected child range
      have hoccc : OccIn st key (childB st.k_ b e i) (childE st.k_ b e i) := by
        intro p hp hkp
        obtain ⟨hp1, hp2⟩ := hocc p hp hkp
        constructor
        · rcases Nat.eq_zero_or_pos i with rfl | hip
          · rw [childB_zero]
            exact hp1
          · rw [childB_pos st.k_ b e i (by omega)]
            have h1 := hlow (i - 1) (by omega)
            have hcast : ((i - 1 : Nat) : Int) + 1 = (i : Int) := by omega
            rw [hcast] at h1
            obtain ⟨hc1, hc2⟩ := hpivnat0 i (by omega)
            by_contra hcon
            have h4 : p ≤ (b + stepN st.k_ b e * (i : Int)).toNat := by omega
            have h5 := v.hsorted p (b + stepN st.k_ b e * (i : Int)).toNat h4 (by omega)
            omega
        · by_cases hik : i = st.k_ - 1
          · rw [childE_last st.k_ b e i hik]
            exact hp2
          · rw [childE_mid st.k_ b e i hik]
            have h1 := hltcur (by omega)
            simp only at h1
            obtain ⟨hc1, hc2⟩ := hpivnat i (by omega)
            by_contra hcon
            have h3 : (b + stepN st.k_ b e * ((i : Int) + 1)).toNat ≤ p := by omega
            have h5 := v.hsorted (b + stepN st.k_ b e * ((i : Int) + 1)).toNat p h3 hp
            omega
      -- the child subrange stays inside the snapshot
      have hcbb : b ≤ childB st.k_ b e i ∧ 0 ≤ childB st.k_ b e i := by
        rcases Nat.eq_zero_or_pos i with rfl | hip
        · rw [childB_zero]
          omega
        · rw [childB_pos st.k_ b e i (by omega)]
          have h2 : 0 ≤ stepN st.k_ b e * (i : Int) :=
            mul_nonneg (stepN_nonneg _ _ _) (by omega)
          omega
      have hcee : childE st.k_ b e i ≤ e := by
        by_cases hik : i = st.k_ - 1
        · rw [childE_last st.k_ b e i hik]
        · rw [childE_mid st.k_ b e i hik]
          have h1 := hmul2 i (by omega)
          omega
      rcases Nat.lt_or_ge (c + 1) st.num_layers_ with hcc | hcc
      · -- interior child: recurse
        have hinvc := inv.child hk hcc i (by omega)
        have hnode2 := hnode.extend i (by omega) hcc
        by_cases hi0 : i = 0
        · subst hi0
          rw [if_pos rfl, hca1]
          have hinvc2 : NInv st.size_ st.k_ st.num_layers_ (c + 1) (d * st.k_)
              (childB st.k_ b e 0) (childE st.k_ b e 0) := by simpa using hinvc
          rw [childB_zero] at hinvc2
          have hnode3 : NodeFrom st.k_ st.num_layers_ 0 0 0 ((st.size_ : Int) - 1) (c + 1)
              (d * st.k_) b (childE st.k_ b e 0) := by
            have h6 := hnode2
            rw [childB_zero] at h6
            simpa using h6
          have hocc2 : OccIn st key b (childE st.k_ b e 0) := by
            have h6 := hoccc
            rw [childB_zero] at h6
            exact h6
          exact ih (c + 1) (d * st.k_) b (childE st.k_ b e 0) (by omega) hinvc2 hnode3 hocc2
        · by_cases hik : i = st.k_ - 1
          · subst hik
            rw [if_neg hi0, if_pos rfl, hca2 (st.k_ - 1) (by omega) (by omega)]
            have hIH := ih (c + 1) (d * st.k_ + (st.k_ - 1) * (st.k_ - 1))
              (childB st.k_ b e (st.k_ - 1)) (childE st.k_ b e (st.k_ - 1)) (by omega)
              hinvc hnode2 hoccc
            rw [childE_last st.k_ b e _ rfl] at hIH
            exact hIH
          · rw [if_neg hi0, if_neg hik, hca2 i (by omega) (by omega), hca3 i (by omega)]
            exact ih (c + 1) (d * st.k_ + i * (st.k_ - 1)) (childB st.k_ b e i)
              (childE st.k_ b e i) (by omega) hinvc hnode2 hoccc
      · -- terminal child: the recursion returns the child range as-is
        have hterm : ∀ (bb ee : Int) (d2 : Nat),
            find_inner_layers_internal st key bb ee (st.k_ ^ (c + 1) - 1) d2 (c + 1) =
            some (bb, ee) := fun bb ee d2 => fint_terminal st key bb ee _ d2 (c + 1) (by omega)
        have hfin : 0 ≤ childB st.k_ b e i ∧ childE st.k_ b e i ≤ (st.size_ : Int) - 1 ∧
            (childB st.k_ b e i = childE st.k_ b e i →
              ((∃ p : Nat, p < st.size_ ∧ keyAt st p = key) →
              (childB st.k_ b e i).toNat < st.size_ ∧
                keyAt st (childB st.k_ b e i).toNat = key)) ∧
            (childB st.k_ b e i ≠ childE st.k_ b e i →
              OccIn st key (childB st.k_ b e i) (childE st.k_ b e i)) := by
          refine ⟨hcbb.2, by omega, ?_, fun _ => hoccc⟩
          rintro hsing ⟨p, hp, hkp⟩
          obtain ⟨hp1, hp2⟩ := hoccc p hp hkp
          have h2 : (childB st.k_ b e i).toNat = p := by omega
          rw [h2]
          exact ⟨hp, hkp⟩
        by_cases hi0 : i = 0
        · subst hi0
          rw [if_pos rfl, hca1, hterm]
          refine ⟨b, childE st.k_ b e 0, rfl, ?_⟩
          have h7 := hfin
          rw [childB_zero] at h7
          exact h7
        · by_cases hik : i = st.k_ - 1
          · subst hik
            rw [if_neg hi0, if_pos rfl, hca2 (st.k_ - 1) (by omega) (by omega), hterm]
            refine ⟨childB st.k_ b e (st.k_ - 1), e, rfl, ?_⟩
            have h7 := hfin
            rw [childE_last st.k_ b e _ rfl] at h7
            exact h7
          · rw [if_neg hi0, if_neg hik, hca2 i (by omega) (by omega), hca3 i (by omega), hterm]
            exact ⟨childB st.k_ b e i, childE st.k_ b e i, rfl, hfin⟩
    · -- a pivot equals the key: stop at its snapshot position
      rw [fint_step_eq st key b e (st.k_ ^ c - 1) d c i (by omega) heqsome]
      have hx : ((u64 (e - b) / st.k_ * (i + 1) : Nat) : Int) =
          stepN st.k_ b e * ((i : Int) + 1) := by
        rw [Nat.cast_mul, hq, Nat.cast_add, Nat.cast_one]
      have hbound : b + ((u64 (e - b) / st.k_ * (i + 1) : Nat) : Int) < 2 ^ 31 := by
        have h2 := hmul2 i (by omega)
        omega
      have hpa := pAdd0_eq b (u64 (e - b) / st.k_ * (i + 1)) hb0 hbound
      rw [hpa, hx]
      obtain ⟨hc1, hc2⟩ := hpivnat i (by omega)
      have h2 := hmul2 i (by omega)
      refine ⟨b + stepN st.k_ b e * ((i : Int) + 1), b + stepN st.k_ b e * ((i : Int) + 1),
        rfl, by omega, by omega, ?_, ?_⟩
      · intro _ _
        refine ⟨hc2, ?_⟩
        have h3 := hveq
        simp only at h3
        exact h3
      · intro hcon
        exact absurd rfl hcon

/-! ## The binary search -/

theorem getC_in (st : KAryIndex) (p : Nat) (hp : p < st.size_) :
    st.container_.get? p = some (st.container_.getD p dEntry) := by
  rw [Array.getD_eq_get?, Array.get?_eq_getElem?, Array.getElem?_lt _ hp]
  rfl

/-- Correctness of the binary search `find_internal` on a window `[b, e]` that
contains every occurrence of the key.  The window end may reach `size_` (the
`L = 0` call passes `(0, size_)`); the probe then stays in bounds because the
searched key does not exceed the last key and every position strictly left of
the window holds a smaller key. -/
theorem find_internal_spec (st : KAryIndex) (key : Nat)
    (hsorted : ∀ p q : Nat, p ≤ q → q < st.size_ → keyAt st p ≤ keyAt st q)
    (hN1 : 1 ≤ st.size_) (hN : st.size_ ≤ 2 ^ 30)
    (hkmax : key ≤ keyAt st (st.size_ - 1)) :
    ∀ (f : Nat) (b e : Int), (e + 1 - b).toNat ≤ f →
      0 ≤ b → e ≤ (st.size_ : Int) →
      (e = (st.size_ : Int) → 1 ≤ b → keyAt st (b - 1).toNat < key) →
      OccIn st key b e →
      ∃ res : Nat, find_internal st key b e = some res ∧
        (res = st.size_ ∨ (res < st.size_ ∧ keyAt st res = key ∧
          b ≤ (res : Int) ∧ (res : Int) ≤ e)) ∧
        (res = st.size_ → ∀ p : Nat, p < st.size_ → keyAt st p ≠ key) := by
  intro f
  induction f with
  | zero =>
    intro b e hf hb he hprev hocc
    rw [find_internal, dif_pos (by omega)]
    refine ⟨st.size_, rfl, Or.inl rfl, fun _ p hp hkp => ?_⟩
    obtain ⟨h1, h2⟩ := hocc p hp hkp
    omega
  | succ n ih =>
    intro b e hf hb he hprev hocc
    by_cases hbe : b > e
    · rw [find_internal, dif_pos hbe]
      refine ⟨st.size_, rfl, Or.inl rfl, fun _ p hp hkp => ?_⟩
      obtain ⟨h1, h2⟩ := hocc p hp hkp
      omega
    · rw [find_internal, dif_neg hbe]
      dsimp only
      obtain ⟨hm1, hm2⟩ := tdiv_avg_bounds b e (by omega)
      have hm0 : 0 ≤ b + e := by omega
      have hmd : Int.tdiv (b + e) 2 = (b + e) / 2 := Int.tdiv_eq_ediv hm0 (by omega)
      have hsplit : 2 * ((b + e) / 2) + (b + e) % 2 = b + e := Int.ediv_add_emod _ _
      have hr1 : 0 ≤ (b + e) % 2 := Int.emod_nonneg _ (by omega)
      have hr2 : (b + e) % 2 < 2 := Int.emod_lt_of_pos _ (by omega)
      have hmN : Int.tdiv (b + e) 2 < (st.size_ : Int) := by
        by_contra hcon
        have h2 : e = (st.size_ : Int) := by omega
        have h3 : (1 : Int) ≤ b := by omega
        have h4 := hprev h2 h3
        have h5 : ((b - 1).toNat : Int) = b - 1 := by omega
        have h6 : b = (st.size_ : Int) := by omega
        have h7 : (b - 1).toNat = st.size_ - 1 := by omega
        rw [h7] at h4
        omega
      have hu : u64 (Int.tdiv (b + e) 2) = (Int.tdiv (b + e) 2).toNat :=
        u64_small _ (by omega) (by omega)
      rw [hu, getC_in st _ (by omega)]
      dsimp only
      have hkm : (st.container_.getD (Int.tdiv (b + e) 2).toNat dEntry).key_ =
          keyAt st (Int.tdiv (b + e) 2).toNat := rfl
      by_cases h1 : key = keyAt st (Int.tdiv (b + e) 2).toNat
      · rw [hkm, if_pos h1]
        refine ⟨(Int.tdiv (b + e) 2).toNat, rfl, Or.inr ⟨by omega, h1.symm, by omega, by omega⟩,
          fun hcon => absurd hcon (by omega)⟩
      · rw [hkm, if_neg h1]
        by_cases h2 : key > keyAt st (Int.tdiv (b + e) 2).toNat
        · rw [if_pos h2]
          have hocc2 : OccIn st key (Int.tdiv (b + e) 2 + 1) e := by
            intro p hp hkp
            obtain ⟨hp1, hp2⟩ := hocc p hp hkp
            refine ⟨?_, hp2⟩
            by_contra hcon
            have h3 : p ≤ (Int.tdiv (b + e) 2).toNat := by omega
            have h4 := hsorted p (Int.tdiv (b + e) 2).toNat h3 (by omega)
            omega
          have hprev2 : e = (st.size_ : Int) → 1 ≤ Int.tdiv (b + e) 2 + 1 →
              keyAt st (Int.tdiv (b + e) 2 + 1 - 1).toNat < key := by
            intro _ _
            have h3 : (Int.tdiv (b + e) 2 + 1 - 1) = Int.tdiv (b + e) 2 := by omega
            rw [h3]
            omega
          obtain ⟨res, hres, hcases, hnone⟩ :=
            ih (Int.tdiv (b + e) 2 + 1) e (by omega) (by omega) he hprev2 hocc2
          refine ⟨res, hres, ?_, hnone⟩
          rcases hcases with h | ⟨ha, hb2, hc, hd⟩
          · exact Or.inl h
          · exact Or.inr ⟨ha, hb2, by omega, hd⟩
        · rw [if_neg h2]
          have hocc2 : OccIn st key b (Int.tdiv (b + e) 2 - 1) := by
            intro p hp hkp
            obtain ⟨hp1, hp2⟩ := hocc p hp hkp
            refine ⟨hp1, ?_⟩
            by_contra hcon
            have h3 : (Int.tdiv (b + e) 2).toNat ≤ p := by omega
            have h4 := hsorted (Int.tdiv (b + e) 2).toNat p h3 hp
            omega
          have hprev2 : Int.tdiv (b + e) 2 - 1 = (st.size_ : Int) → 1 ≤ b →
              keyAt st (b - 1).toNat < key := by
            intro hcon
            omega
          obtain ⟨res, hres, hcases, hnone⟩ :=
            ih b (Int.tdiv (b + e) 2 - 1) (by omega) hb (by omega) hprev2 hocc2
          refine ⟨res, hres, ?_, hnone⟩
          rcases hcases with h | ⟨ha, hb2, hc, hd⟩
          · exact Or.inl h
          · exact Or.inr ⟨ha, hb2, hc, by omega⟩

/-! ## The outward duplicate scans -/

theorem range_concat (s n : Nat) : List.range' s (n + 1) = List.range' s n ++ [s + n] := by
  have h := @List.range'_concat 1 s n
  simpa using h

theorem range_cons (s n : Nat) : List.range' s (n + 1) = s :: List.range' (s + 1) n := by
  have h := List.range'_succ s n 1
  simpa using h

/-- The left scan terminates with a value whenever it starts inside the
snapshot. -/
theorem move_left_some (st : KAryIndex) (key : Nat) (hN : st.size_ ≤ 2 ^ 30) :
    ∀ (f : Nat) (l : Int), (l + 1).toNat ≤ f → l ≤ (st.size_ : Int) - 1 →
      ∃ vs, move_left st key l = some vs := by
  intro f
  induction f with
  | zero =>
    intro l hf hl
    rw [move_left, if_pos (by omega)]
    exact ⟨[], rfl⟩
  | succ n ih =>
    intro l hf hl
    by_cases h0 : l < 0
    · rw [move_left, if_pos h0]
      exact ⟨[], rfl⟩
    · rw [move_left, if_neg h0]
      have hrd : readC st l = some (st.container_.getD l.toNat dEntry) := by
        rw [readC, u64_small l (by omega) (by omega)]
        exact getC_in st _ (by omega)
      rw [hrd]
      dsimp only
      by_cases hkey : (st.container_.getD l.toNat dEntry).key_ = key
      · rw [if_pos hkey]
        obtain ⟨vs, hvs⟩ := ih (l - 1) (by omega) (by omega)
        rw [hvs]
        exact ⟨_, rfl⟩
      · rw [if_neg hkey]
        exact ⟨[], rfl⟩

/-- The right scan always terminates with a value. -/
theorem move_right_some (st : KAryIndex) (key : Nat) :
    ∀ (f r : Nat), st.size_ - r ≤ f → ∃ vs, move_right st key r = some vs := by
  intro f
  induction f with
  | zero =>
    intro r hf
    rw [move_right, dif_neg (by omega)]
    exact ⟨[], rfl⟩
  | succ n ih =>
    intro r hf
    by_cases hr : r < st.size_
    · rw [move_right, dif_pos hr, getC_in st r hr]
      dsimp only
      by_cases hkey : (st.container_.getD r dEntry).key_ = key
      · rw [if_pos hkey]
        obtain ⟨vs, hvs⟩ := ih (r + 1) (by omega)
        rw [hvs]
        exact ⟨_, rfl⟩
      · rw [if_neg hkey]
        exact ⟨[], rfl⟩
    · rw [move_right, dif_neg hr]
      exact ⟨[], rfl⟩

/-- Starting just left of position `a` inside the run `[lo, hi]` of equal
keys, the left scan collects exactly the values left of `a` in the run,
nearest first. -/
theorem move_left_run (st : KAryIndex) (key lo hi : Nat) (hN : st.size_ ≤ 2 ^ 30)
    (hhi : hi < st.size_)
    (hin : ∀ p, lo ≤ p → p ≤ hi → keyAt st p = key)
    (hleft : 1 ≤ lo → keyAt st (lo - 1) ≠ key) :
    ∀ (f a : Nat), a - lo ≤ f → lo ≤ a → a ≤ hi + 1 →
      move_left st key ((a : Int) - 1) =
        some (((List.range' lo (a - lo)).reverse).map (valAt st)) := by
  intro f
  induction f with
  | zero =>
    intro a hf hlo hahi
    rw [show a - lo = 0 by omega]
    simp only [List.range', List.reverse_nil, List.map_nil]
    by_cases h0 : lo = 0
    · rw [move_left, if_pos (by omega)]
    · rw [move_left, if_neg (by omega)]
      have hrd : readC st ((a : Int) - 1) = some (st.container_.getD (lo - 1) dEntry) := by
        rw [readC, u64_small _ (by omega) (by omega),
          show ((a : Int) - 1).toNat = lo - 1 by omega]
        exact getC_in st _ (by omega)
      rw [hrd]
      dsimp only
      have hneg : ¬ (st.container_.getD (lo - 1) dEntry).key_ = key := hleft (by omega)
      rw [if_neg hneg]
  | succ n ih =>
    intro a hf hlo hahi
    by_cases ha : a = lo
    · rw [show a - lo = 0 by omega]
      simp only [List.range', List.reverse_nil, List.map_nil]
      by_cases h0 : lo = 0
      · rw [move_left, if_pos (by omega)]
      · rw [move_left, if_neg (by omega)]
        have hrd : readC st ((a : Int) - 1) = some (st.container_.getD (lo - 1) dEntry) := by
          rw [readC, u64_small _ (by omega) (by omega),
            show ((a : Int) - 1).toNat = lo - 1 by omega]
          exact getC_in st _ (by omega)
        rw [hrd]
        dsimp only
        have hneg : ¬ (st.container_.getD (lo - 1) dEntry).key_ = key := hleft (by omega)
        rw [if_neg hneg]
    · rw [move_left, if_neg (by omega)]
      have hrd : readC st ((a : Int) - 1) = some (st.container_.getD (a - 1) dEntry) := by
        rw [readC, u64_small _ (by omega) (by omega),
          show ((a : Int) - 1).toNat = a - 1 by omega]
        exact getC_in st _ (by omega)
      rw [hrd]
      dsimp only
      have hpos : (st.container_.getD (a - 1) dEntry).key_ = key := hin (a - 1) (by omega) (by omega)
      rw [if_pos hpos,
        show (a : Int) - 1 - 1 = ((a - 1 : Nat) : Int) - 1 by omega,
        ih (a - 1) (by omega) (by omega) (by omega)]
      rw [show a - lo = (a - 1 - lo) + 1 by omega, range_concat,
        show lo + (a - 1 - lo) = a - 1 by omega]
      simp only [List.reverse_append, List.reverse_cons, List.reverse_nil, List.nil_append,
        List.cons_append, List.map_cons, Option.map_some]
      rfl

/-- Starting at position `a` inside the run `[lo, hi]` of equal keys (or just
right of it), the right scan collects exactly the run values from `a`
rightward, in snapshot order. -/
theorem move_right_run (st : KAryIndex) (key lo hi : Nat)
    (hhi : hi < st.size_)
    (hin : ∀ p, lo ≤ p → p ≤ hi → keyAt st p = key)
    (hright : hi + 1 < st.size_ → keyAt st (hi + 1) ≠ key) :
    ∀ (f a : Nat), hi + 1 - a ≤ f → lo ≤ a → a ≤ hi + 1 →
      move_right st key a = some ((List.range' a (hi + 1 - a)).map (valAt st)) := by
  intro f
  induction f with
  | zero =>
    intro a hf hlo hahi
    rw [show hi + 1 - a = 0 by omega]
    simp only [List.range', List.map_nil]
    by_cases hr : a < st.size_
    · rw [move_right, dif_pos hr, getC_in st _ hr]
      dsimp only
      have hneg : ¬ (st.container_.getD a dEntry).key_ = key := by
        have h1 : a = hi + 1 := by omega
        rw [h1]
        exact hright (by omega)
      rw [if_neg hneg]
    · rw [move_right, dif_neg hr]
  | succ n ih =>
    intro a hf hlo hahi
    by_cases hend : a = hi + 1
    · rw [show hi + 1 - a = 0 by omega]
      simp only [List.range', List.map_nil]
      by_cases hr : a < st.size_
      · rw [move_right, dif_pos hr, getC_in st _ hr]
        dsimp only
        have hneg : ¬ (st.container_.getD a dEntry).key_ = key := by
          rw [hend]
          exact hright (by omega)
        rw [if_neg hneg]
      · rw [move_right, dif_neg hr]
    · rw [move_right, dif_pos (by omega), getC_in st a (by omega)]
      dsimp only
      have hpos : (st.container_.getD a dEntry).key_ = key := hin a hlo (by omega)
      rw [if_pos hpos, ih (a + 1) (by omega) (by omega) (by omega)]
      rw [show hi + 1 - a = (hi - a) + 1 by omega, range_cons,
        show hi + 1 - (a + 1) = hi - a by omega]
      simp only [List.map_cons, Option.map_some]
      rfl

/-! ## Assembling the emission step and the whole lookup -/

theorem emit_some (st : KAryIndex) (key off : Nat) (hN : st.size_ ≤ 2 ^ 30)
    (hoff : off ≤ st.size_) : ∃ vs, emit_from st key off = some vs := by
  by_cases h0 : off = st.size_
  · rw [emit_from, if_pos h0]
    exact ⟨[], rfl⟩
  · rw [emit_from, if_neg h0, getC_in st off (by omega)]
    obtain ⟨lvs, hl⟩ := move_left_some st key hN ((off : Int) - 1 + 1).toNat ((off : Int) - 1)
      (by omega) (by omega)
    obtain ⟨rvs, hr⟩ := move_right_some st key (st.size_ - (off + 1)) (off + 1) (by omega)
    rw [hl, hr]
    exact ⟨_, rfl⟩

/-- From an anchor inside the run `[lo, hi]` of equal keys, the emission step
produces the anchor value followed by the left-run values, nearest first, and
the right-run values in snapshot order. -/
theorem emit_run (st : KAryIndex) (key lo hi a : Nat) (hN : st.size_ ≤ 2 ^ 30)
    (hhi : hi < st.size_) (hlo : lo ≤ a) (ha : a ≤ hi)
    (hin : ∀ p, lo ≤ p → p ≤ hi → keyAt st p = key)
    (hleft : 1 ≤ lo → keyAt st (lo - 1) ≠ key)
    (hright : hi + 1 < st.size_ → keyAt st (hi + 1) ≠ key) :
    emit_from st key a = some (valAt st a ::
      (((List.range' lo (a - lo)).reverse).map (valAt st) ++
        (List.range' (a + 1) (hi - a)).map (valAt st))) := by
  rw [emit_from, if_neg (by omega), getC_in st a (by omega),
    move_left_run st key lo hi hN hhi hin hleft (a - lo) a (by omega) hlo (by omega),
    move_right_run st key lo hi hhi hin hright (hi + 1 - (a + 1)) (a + 1) (by omega)
      (by omega) (by omega)]
  rw [show hi + 1 - (a + 1) = hi - a by omega]
  rfl

/-- The root node of the descent satisfies the node invariants. -/
theorem root_inv (st : KAryIndex) (v : Valid st) (hL : 1 ≤ st.num_layers_) :
    NInv st.size_ st.k_ st.num_layers_ 0 0 0 ((st.size_ : Int) - 1) := by
  refine ⟨by omega, by omega, by omega, ?_, by omega⟩
  have h1 : ((st.k_ ^ st.num_layers_ : Nat) : Int) = (st.k_ : Int) ^ st.num_layers_ :=
    pow_cast_comm _ _
  have h2 := v.hM
  have h3 : (st.k_ : Int) ≥ 1 := by have := v.hk; exact_mod_cast by omega
  simp only [Nat.sub_zero]
  omega

/-- The descent from a valid layered state: it yields a window with both ends
inside the snapshot; an equal window pins an occurrence whenever the key is
present at all, and an unequal window contains every occurrence. -/
theorem descent_root (st : KAryIndex) (key : Nat) (v : Valid st)
    (hN : st.size_ ≤ 2 ^ 30) (hL : 1 ≤ st.num_layers_) :
    ∃ r1 r2 : Int,
      find_inner_layers st key = some (r1, r2) ∧
      0 ≤ r1 ∧ r2 ≤ (st.size_ : Int) - 1 ∧
      (r1 = r2 → ((∃ p : Nat, p < st.size_ ∧ keyAt st p = key) →
        r1.toNat < st.size_ ∧ keyAt st r1.toNat = key)) ∧
      (r1 ≠ r2 → OccIn st key r1 r2) := by
  have hocc : OccIn st key 0 ((st.size_ : Int) - 1) := by
    intro p hp _
    constructor
    · omega
    · omega
  obtain ⟨r1, r2, heq, h1, h2, h3, h4⟩ :=
    fint_descent st key v hN hL st.num_layers_ 0 0 0 ((st.size_ : Int) - 1) (by omega)
      (root_inv st v hL) (NodeFrom.refl 0 0 0 ((st.size_ : Int) - 1)) hocc
  rw [show st.k_ ^ 0 - 1 = 0 by simp] at heq
  refine ⟨r1, r2, ?_, h1, h2, h3, h4⟩
  rw [find_top st key hL v.hN1 hN]
  exact heq

theorem range_eq_cons (n : Nat) (h : 1 ≤ n) : List.range n = 0 :: List.range' 1 (n - 1) := by
  rw [List.range_eq_range']
  conv_lhs => rw [show n = (n - 1) + 1 by omega]
  rw [range_cons]

/-- A key present exactly on the run `[lo, hi]` of the snapshot is found, and
the output is the anchor value followed by the left-run values (nearest first)
and the right-run values (snapshot order), for some anchor inside the run. -/
theorem find_run_output (st : KAryIndex) (key lo hi : Nat) (v : Valid st)
    (hN : st.size_ ≤ 2 ^ 30) (hhi : hi < st.size_) (hlo : lo ≤ hi)
    (hrun : ∀ p, p < st.size_ → (keyAt st p = key ↔ (lo ≤ p ∧ p ≤ hi))) :
    ∃ a, lo ≤ a ∧ a ≤ hi ∧
      find st key = some (valAt st a ::
        (((List.range' lo (a - lo)).reverse).map (valAt st) ++
          (List.range' (a + 1) (hi - a)).map (valAt st))) := by
  have hN1 := v.hN1
  have hklo : keyAt st lo = key := (hrun lo (by omega)).mpr ⟨le_refl lo, hlo⟩
  have hkmin : st.key_min_ ≤ key := by
    rw [v.hmin, ← hklo]
    exact v.hsorted 0 lo (by omega) (by omega)
  have hkmax : key ≤ st.key_max_ := by
    rw [v.hmax, ← hklo]
    exact v.hsorted lo (st.size_ - 1) (by omega) (by omega)
  have hin : ∀ p, lo ≤ p → p ≤ hi → keyAt st p = key := fun p h1 h2 =>
    (hrun p (by omega)).mpr ⟨h1, h2⟩
  have hleft : 1 ≤ lo → keyAt st (lo - 1) ≠ key := by
    intro h1 hcon
    have := (hrun (lo - 1) (by omega)).mp hcon
    omega
  have hright : hi + 1 < st.size_ → keyAt st (hi + 1) ≠ key := by
    intro h1 hcon
    have := (hrun (hi + 1) (by omega)).mp hcon
    omega
  have hkm2 : key ≤ keyAt st (st.size_ - 1) := by
    rw [← v.hmax]
    exact hkmax
  rw [find, if_neg (by omega), if_neg (by push_neg; exact ⟨by omega, by omega⟩)]
  by_cases hMm : st.key_max_ = st.key_min_
  · rw [if_pos hMm, if_pos (by omega : st.key_max_ = key)]
    have h3 := v.hmin
    have h4 := v.hmax
    have hall : ∀ p, p < st.size_ → keyAt st p = key := by
      intro p hp
      have h1 := v.hsorted 0 p (by omega) hp
      have h2 := v.hsorted p (st.size_ - 1) (by omega) (by omega)
      omega
    have hlo0 : lo = 0 := by
      have := (hrun 0 (by omega)).mp (hall 0 (by omega))
      omega
    have hhiN : hi = st.size_ - 1 := by
      have := (hrun (st.size_ - 1) (by omega)).mp (hall _ (by omega))
      omega
    refine ⟨0, by omega, by omega, ?_⟩
    rw [hlo0, hhiN]
    simp only [Nat.sub_self, Nat.sub_zero, List.range', List.reverse_nil, List.map_nil,
      List.nil_append]
    rw [range_eq_cons st.size_ (by omega)]
    rfl
  · rw [if_neg hMm]
    by_cases hL0 : st.num_layers_ = 0
    · have hFIL : find_inner_layers st key = some (0, (st.size_ : Int)) := by
        rw [find_inner_layers, if_pos hL0]
      rw [hFIL]
      dsimp only
      rw [if_neg (by omega : ¬ (0 : Int) = (st.size_ : Int))]
      have hoccall : OccIn st key 0 (st.size_ : Int) := by
        intro p hp _
        exact ⟨by omega, by omega⟩
      obtain ⟨res, hres, hcase, hnone⟩ := find_internal_spec st key v.hsorted hN1 hN hkm2
        (st.size_ + 1) 0 (st.size_ : Int) (by omega) (by omega) (by omega)
        (fun _ h1 => absurd h1 (by omega)) hoccall
      rw [hres]
      dsimp only
      rcases hcase with h | ⟨hlt, hkey, _, _⟩
      · exact absurd (hnone h lo (by omega)) (by simp [hklo])
      · have hb := (hrun res hlt).mp hkey
        exact ⟨res, hb.1, hb.2, emit_run st key lo hi res hN hhi hb.1 hb.2 hin hleft hright⟩
    · obtain ⟨r1, r2, hFIL, hr1, hr2, heqc, hneqc⟩ :=
        descent_root st key v hN (by omega)
      have hNc : (st.size_ : Int) ≤ 2 ^ 30 := by exact_mod_cast hN
      rw [hFIL]
      dsimp only
      by_cases hrr : r1 = r2
      · rw [if_pos hrr]
        obtain ⟨hlt, hkey⟩ := heqc hrr ⟨lo, by omega, hklo⟩
        have hb := (hrun r1.toNat hlt).mp hkey
        rw [u64_small r1 hr1 (by omega)]
        exact ⟨r1.toNat, hb.1, hb.2,
          emit_run st key lo hi r1.toNat hN hhi hb.1 hb.2 hin hleft hright⟩
      · rw [if_neg hrr]
        obtain ⟨res, hres, hcase, hnone⟩ := find_internal_spec st key v.hsorted hN1 hN hkm2
          (r2 + 1 - r1).toNat r1 r2 (by omega) hr1 (by omega)
          (fun hcon => absurd hcon (by omega)) (hneqc hrr)
        rw [hres]
        dsimp only
        rcases hcase with h | ⟨hlt, hkey, _, _⟩
        · exact absurd (hnone h lo (by omega)) (by simp [hklo])
        · have hb := (hrun res hlt).mp hkey
          exact ⟨res, hb.1, hb.2, emit_run st key lo hi res hN hhi hb.1 hb.2 hin hleft hright⟩

/-- On a valid state, the lookup never reads out of bounds: in the total
embedding `find` returns a value for every key. -/
theorem find_total (st : KAryIndex) (key : Nat) (v : Valid st)
    (hN : st.size_ ≤ 2 ^ 30) : (find st key).isSome := by
  have hN1 := v.hN1
  rw [find]
  by_cases h0 : st.size_ = 0
  · rw [if_pos h0]
    rfl
  · rw [if_neg h0]
    by_cases h1 : key > st.key_max_ ∨ key < st.key_min_
    · rw [if_pos h1]
      rfl
    · rw [if_neg h1]
      push_neg at h1
      by_cases hMm : st.key_max_ = st.key_min_
      · rw [if_pos hMm]
        by_cases h2 : st.key_max_ = key
        · rw [if_pos h2]
          rfl
        · rw [if_neg h2]
          rfl
      · rw [if_neg hMm]
        have hkm2 : key ≤ keyAt st (st.size_ - 1) := by
          rw [← v.hmax]
          exact h1.1
        by_cases hL0 : st.num_layers_ = 0
        · have hFIL : find_inner_layers st key = some (0, (st.size_ : Int)) := by
            rw [find_inner_layers, if_pos hL0]
          rw [hFIL]
          dsimp only
          rw [if_neg (by omega : ¬ (0 : Int) = (st.size_ : Int))]
          have hoccall : OccIn st key 0 (st.size_ : Int) := by
            intro p hp _
            exact ⟨by omega, by omega⟩
          obtain ⟨res, hres, hcase, _⟩ := find_internal_spec st key v.hsorted hN1 hN hkm2
            (st.size_ + 1) 0 (st.size_ : Int) (by omega) (by omega) (by omega)
            (fun _ h2 => absurd h2 (by omega)) hoccall
          rw [hres]
          dsimp only
          obtain ⟨vs, hvs⟩ := emit_some st key res hN (by rcases hcase with h | ⟨h, _⟩ <;> omega)
          rw [hvs]
          rfl
        · obtain ⟨r1, r2, hFIL, hr1, hr2, heqc, hneqc⟩ :=
            descent_root st key v hN (by omega)
          have hNc : (st.size_ : Int) ≤ 2 ^ 30 := by exact_mod_cast hN
          rw [hFIL]
          dsimp only
          by_cases hrr : r1 = r2
          · rw [if_pos hrr]
            rw [u64_small r1 hr1 (by omega)]
            dsimp only
            obtain ⟨vs, hvs⟩ := emit_some st key r1.toNat hN (by omega)
            rw [hvs]
            rfl
          · rw [if_neg hrr]
            obtain ⟨res, hres, hcase, _⟩ := find_internal_spec st key v.hsorted hN1 hN hkm2
              (r2 + 1 - r1).toNat r1 r2 (by omega) hr1 (by omega)
              (fun hcon => absurd hcon (by omega)) (hneqc hrr)
            rw [hres]
            dsimp only
            obtain ⟨vs, hvs⟩ := emit_some st key res hN
              (by rcases hcase with h | ⟨h, _⟩ <;> omega)
            rw [hvs]
            rfl

theorem range_append (lo m n : Nat) :
    List.range' lo m ++ List.range' (lo + m) n = List.range' lo (m + n) := by
  have h := List.range'_append lo m n 1
  rw [one_mul] at h
  rw [Nat.add_comm m n]
  exact h

/-- The anchor-first emission order is a permutation of the run in snapshot
order. -/
theorem run_perm (v : Nat → Nat) (lo hi a : Nat) (hlo : lo ≤ a) (ha : a ≤ hi) :
    (v a :: (((List.range' lo (a - lo)).reverse).map v ++
      (List.range' (a + 1) (hi - a)).map v)).Perm
      ((List.range' lo (hi + 1 - lo)).map v) := by
  have h1 : List.range' lo (hi + 1 - lo) =
      List.range' lo (a - lo) ++ List.range' a (hi + 1 - a) := by
    rw [show List.range' a (hi + 1 - a) = List.range' (lo + (a - lo)) (hi + 1 - a) by
        rw [show lo + (a - lo) = a by omega],
      range_append, show a - lo + (hi + 1 - a) = hi + 1 - lo by omega]
  have h2 : List.range' a (hi + 1 - a) = a :: List.range' (a + 1) (hi - a) := by
    rw [show hi + 1 - a = (hi - a) + 1 by omega, range_cons]
  rw [h1, h2, List.map_append, List.map_cons, List.map_reverse]
  refine List.Perm.trans (List.Perm.cons _ (List.Perm.append_right _
    (List.reverse_perm ((List.range' lo (a - lo)).map v)))) ?_
  exact List.perm_middle.symm

/-! ## Concrete scenario states -/

/-- Insertion table from a key list: the `i`-th inserted tuple gets value
`i + 1`. -/
def mkTable (ks : List Nat) : List Entry :=
  ks.enum.map (fun p => ⟨p.2, p.1 + 1⟩)

/-- Scenario S4 of the spec: insertion keys `3,1,3,2,3,4,3,5` (values 1..8),
`k = 2`, `L = 2`. -/
def st0S4 : KAryIndex := ⟨mkTable [3, 1, 3, 2, 3, 4, 3, 5], #[], 2, 2, 0, 0, #[]⟩

def stS4 : KAryIndex := (reorganize st0S4).1

theorem reS4 : reorganize st0S4 = (stS4, false) := Prod.ext rfl (by decide)

theorem vS4 : Valid stS4 := reorganize_valid st0S4 stS4 (by decide) reS4

/-- Insertion keys `3, 1` (values 1, 2), `k = 2`, `L = 1`. -/
def st0D : KAryIndex := ⟨mkTable [3, 1], #[], 1, 2, 0, 0, #[]⟩

def stD : KAryIndex := (reorganize st0D).1

/-- The same table as `st0D` configured with `L = 0` (pure binary search). -/
def st0D0 : KAryIndex := ⟨mkTable [3, 1], #[], 0, 2, 0, 0, #[]⟩

def stD0 : KAryIndex := (reorganize st0D0).1

/-- Scenario S2 of the spec: keys `1..26`, `k = 3`, `L = 2`. -/
def st0S2 : KAryIndex := ⟨mkTable (List.range' 1 26), #[], 2, 3, 0, 0, #[]⟩

def stS2 : KAryIndex := (reorganize st0S2).1

/-- Keys `1, 2, 3` with `k = 3`, `L = 0`. -/
def st0Z : KAryIndex := ⟨mkTable [1, 2, 3], #[], 0, 3, 0, 0, #[]⟩

def stZ : KAryIndex := (reorganize st0Z).1

theorem reZ : reorganize st0Z = (stZ, false) := Prod.ext rfl (by decide)

theorem vZ : Valid stZ := reorganize_valid st0Z stZ (by decide) reZ

/-- A misconfigured index: two tuples but `k = 2`, `L = 2`
(`k^L - 1 = 3 ≥ 2 = N`). -/
def st0Bad : KAryIndex := ⟨mkTable [7, 5], #[], 2, 2, 0, 0, #[]⟩

/-! ## Claims -/

/-- C1 (amended): for a key occupying the run `[lo, hi]` (with at least two
positions) of the sorted snapshot, `find` emits exactly the run's values, but
anchored: some anchor value comes first, then the values left of the anchor
nearest-first, then the values right of the anchor in snapshot order; the
emission is a permutation of the run in snapshot order, not the snapshot
order itself. -/
theorem kary_C1 (st : KAryIndex) (key lo hi : Nat) (v : Valid st)
    (hN : st.size_ ≤ 2 ^ 30) (hhi : hi < st.size_) (hm : lo < hi)
    (hrun : ∀ p, p < st.size_ → (keyAt st p = key ↔ (lo ≤ p ∧ p ≤ hi))) :
    ∃ a, lo ≤ a ∧ a ≤ hi ∧
      find st key = some (valAt st a ::
        (((List.range' lo (a - lo)).reverse).map (valAt st) ++
          (List.range' (a + 1) (hi - a)).map (valAt st))) ∧
      (valAt st a :: (((List.range' lo (a - lo)).reverse).map (valAt st) ++
        (List.range' (a + 1) (hi - a)).map (valAt st))).Perm
        ((List.range' lo (hi + 1 - lo)).map (valAt st)) := by
  obtain ⟨a, h1, h2, h3⟩ := find_run_output st key lo hi v hN hhi (by omega) hrun
  exact ⟨a, h1, h2, h3, run_perm (valAt st) lo hi a h1 h2⟩

theorem kary_C1_witness :
    ∃ a, 2 ≤ a ∧ a ≤ 5 ∧
      find stS4 3 = some (valAt stS4 a ::
        (((List.range' 2 (a - 2)).reverse).map (valAt stS4) ++
          (List.range' (a + 1) (5 - a)).map (valAt stS4))) ∧
      (valAt stS4 a :: (((List.range' 2 (a - 2)).reverse).map (valAt stS4) ++
        (List.range' (a + 1) (5 - a)).map (valAt stS4))).Perm
        ((List.range' 2 (5 + 1 - 2)).map (valAt stS4)) :=
  kary_C1 stS4 3 2 5 vS4 (by decide) (by decide) (by decide) (by decide)

unseal construct_inner_layers_internal find_inner_layers_internal find_internal move_left
  move_right in
/-- C1 fails as stated: on scenario S4 the four values of key 3 come out
anchor-first as `[3, 1, 5, 7]`, not left-to-right as `[1, 3, 5, 7]`. -/
theorem kary_C1_cex :
    find stS4 3 = some [3, 1, 5, 7] ∧ some [3, 1, 5, 7] ≠ some [1, 3, 5, 7] := by
  constructor
  · decide
  · decide

unseal construct_inner_layers_internal find_inner_layers_internal find_internal move_left
  move_right in
/-- C2 fails on the code: on the two-entry index built from insertion keys
`3, 1` with `k = 2`, `L = 1`, the key 2 is absent (strictly between
`key_min = 1` and `key_max = 3`) yet `find 2` emits the value stored under
key 3. -/
theorem kary_C2 :
    (∀ p, p < stD.size_ → keyAt stD p ≠ 2) ∧ find stD 2 = some [1] := by
  constructor
  · decide
  · decide

unseal construct_inner_layers_internal in
/-- C3 fails on the code: `find_range` is a stub.  On scenario S2 (keys 1..26,
`k = 3`, `L = 2`) the range `[5, 9]` overlaps the key interval and contains
key 5 at snapshot position 4, yet `find_range 5 9` emits nothing. -/
theorem kary_C3 :
    find_range stS2 5 9 = some [] ∧ 5 ≤ stS2.key_max_ ∧ stS2.key_min_ ≤ 9 ∧
      4 < stS2.size_ ∧ keyAt stS2 4 = 5 := by
  refine ⟨?_, ?_, ?_, ?_, ?_⟩ <;> decide

unseal construct_inner_layers_internal find_inner_layers_internal find_internal move_left
  move_right in
/-- C4 fails on the code: over the same table (insertion keys `3, 1`), the
`(k, L) = (2, 1)` configuration and the pure binary search `(2, 0)`
configuration return different value multisets for key 2. -/
theorem kary_C4 :
    stD.table = stD0.table ∧ stD.k_ = stD0.k_ ∧
    find stD 2 = some [1] ∧ find stD0 2 = some [] ∧
    ¬ ([1] : List Nat).Perm [] := by
  refine ⟨?_, ?_, ?_, ?_, ?_⟩ <;> decide

/-- C5: after a successful layered rebuild, every pivot slot `j < k^L - 1`
was written, and holds the key of the deterministic snapshot position
`b + step·(i+1)` of the recursive partition node that owns it; the snapshot
keys are non-decreasing, so every pivot is consistent with that order. -/
theorem kary_C5 (st : KAryIndex) (v : Valid st) (hN : st.size_ ≤ 2 ^ 30)
    (hL : 1 ≤ st.num_layers_) :
    (∀ j, j < st.k_ ^ st.num_layers_ - 1 →
      ∃ (c d i : Nat) (b e : Int),
        NodeFrom st.k_ st.num_layers_ 0 0 0 ((st.size_ : Int) - 1) c d b e ∧
        i < st.k_ - 1 ∧ j = st.k_ ^ c - 1 + d + i ∧
        (b + stepN st.k_ b e * (i + 1)).toNat < st.size_ ∧
        st.inner_nodes_.getD j none =
          some (keyAt st (b + stepN st.k_ b e * (i + 1)).toNat)) ∧
    (∀ p q : Nat, p ≤ q → q < st.size_ → keyAt st p ≤ keyAt st q) := by
  refine ⟨?_, v.hsorted⟩
  intro j hj
  have hN1 := v.hN1
  obtain ⟨c, n, i, hc, hn, hi, hdecomp⟩ := layer_decomp st.k_ v.hk st.num_layers_ j hj
  obtain ⟨b, e, hnode⟩ := node_exists st.k_ st.num_layers_ st.size_ v.hk c hc n hn
  have hinv := hnode.inv v.hk (root_inv st v hL)
  have hkey := valid_pivot st v hN hL c (n * (st.k_ - 1)) b e hnode i hi
  have hbe : b ≤ e := hinv.nonempty v.hk
  have hb0 : 0 ≤ b := hinv.hb
  have he1 : e ≤ (st.size_ : Int) - 1 := hinv.he
  have hmul2 : stepN st.k_ b e * ((i : Int) + 1) ≤ e - b := by
    have h1 : stepN st.k_ b e * ((i : Int) + 1) ≤ stepN st.k_ b e * (st.k_ : Int) := by
      apply mul_le_mul_of_nonneg_left _ (stepN_nonneg _ _ _)
      have := v.hk
      exact_mod_cast by omega
    have h2 := stepN_mul_le st.k_ b e hbe
    omega
  have hstep0 : 0 ≤ stepN st.k_ b e * ((i : Int) + 1) :=
    mul_nonneg (stepN_nonneg _ _ _) (by omega)
  refine ⟨c, n * (st.k_ - 1), i, b, e, hnode, hi, hdecomp, by omega, ?_⟩
  rw [hdecomp]
  exact hkey

theorem kary_C5_witness :
    ∃ (c d i : Nat) (b e : Int),
      NodeFrom stS4.k_ stS4.num_layers_ 0 0 0 ((stS4.size_ : Int) - 1) c d b e ∧
      i < stS4.k_ - 1 ∧ 1 = stS4.k_ ^ c - 1 + d + i ∧
      (b + stepN stS4.k_ b e * (i + 1)).toNat < stS4.size_ ∧
      stS4.inner_nodes_.getD 1 none =
        some (keyAt stS4 (b + stepN stS4.k_ b e * (i + 1)).toNat) :=
  (kary_C5 stS4 vS4 (by decide) (by decide)).1 1 (by decide)

/-- C6 (amended): when `reorganize` hits the configuration error
`k^L - 1 ≥ N`, the error is reported to the caller and the configuration, the
pivot array and the cached key range are unchanged — but the snapshot has
already been refreshed from the data table, because `base_reorganize` runs
before the check. -/
theorem kary_C6 (st0 st1 : KAryIndex) (h : reorganize st0 = (st1, true)) :
    st1.table = st0.table ∧ st1.num_layers_ = st0.num_layers_ ∧ st1.k_ = st0.k_ ∧
    st1.key_min_ = st0.key_min_ ∧ st1.key_max_ = st0.key_max_ ∧
    st1.inner_nodes_ = st0.inner_nodes_ ∧
    st1.container_ = project_sorted st0.table ∧
    ¬ st0.k_ ^ st0.num_layers_ - 1 < (project_sorted st0.table).size := by
  rw [reorganize] at h
  split_ifs at h with h1 h2
  · exact absurd (congrArg Prod.snd h) (by simp)
  · exact absurd (congrArg Prod.snd h) (by simp)
  · refine ⟨?_, ?_, ?_, ?_, ?_, ?_, ?_, h1⟩
    · simpa using (congrArg (fun p => (Prod.fst p).table) h).symm
    · simpa using (congrArg (fun p => (Prod.fst p).num_layers_) h).symm
    · simpa using (congrArg (fun p => (Prod.fst p).k_) h).symm
    · simpa using (congrArg (fun p => (Prod.fst p).key_min_) h).symm
    · simpa using (congrArg (fun p => (Prod.fst p).key_max_) h).symm
    · simpa using (congrArg (fun p => (Prod.fst p).inner_nodes_) h).symm
    · simpa using (congrArg (fun p => (Prod.fst p).container_) h).symm

theorem kary_C6_witness :
    (reorganize st0Bad).1.table = st0Bad.table ∧
    (reorganize st0Bad).1.num_layers_ = st0Bad.num_layers_ ∧
    (reorganize st0Bad).1.k_ = st0Bad.k_ ∧
    (reorganize st0Bad).1.key_min_ = st0Bad.key_min_ ∧
    (reorganize st0Bad).1.key_max_ = st0Bad.key_max_ ∧
    (reorganize st0Bad).1.inner_nodes_ = st0Bad.inner_nodes_ ∧
    (reorganize st0Bad).1.container_ = project_sorted st0Bad.table ∧
    ¬ st0Bad.k_ ^ st0Bad.num_layers_ - 1 < (project_sorted st0Bad.table).size :=
  kary_C6 st0Bad (reorganize st0Bad).1 (Prod.ext rfl (by decide))

/-- C6 fails as stated: on a misconfigured rebuild the error is reported, yet
the index state is not left unchanged — the snapshot was refreshed from the
table before the check. -/
theorem kary_C6_cex :
    (reorganize st0Bad).2 = true ∧
    (reorganize st0Bad).1.container_ ≠ st0Bad.container_ := by
  constructor
  · decide
  · decide

/-- C7: when the searched key equals an inner pivot (the first equal one in
its node's scan order) at a layer above the terminal one, the descent stops
at once with the singleton snapshot position `b + step·(i+1)`; that position
holds the key, and the emission step from that anchor still captures the
whole run of duplicates around it. -/
theorem kary_C7 (st : KAryIndex) (key : Nat) (v : Valid st) (hN : st.size_ ≤ 2 ^ 30)
    (hL : 1 ≤ st.num_layers_) (c d : Nat) (b e : Int)
    (hnode : NodeFrom st.k_ st.num_layers_ 0 0 0 ((st.size_ : Int) - 1) c d b e)
    (i : Nat) (hi : i < st.k_ - 1)
    (hpiv : st.inner_nodes_.getD (st.k_ ^ c - 1 + d + i) none = some key)
    (hfirst : ∀ t, t < i → st.inner_nodes_.getD (st.k_ ^ c - 1 + d + t) none ≠ some key)
    (lo hi2 : Nat) (hhi2 : hi2 < st.size_)
    (hrun : ∀ p, p < st.size_ → (keyAt st p = key ↔ (lo ≤ p ∧ p ≤ hi2))) :
    find_inner_layers_internal st key b e (st.k_ ^ c - 1) d c =
      some (b + stepN st.k_ b e * (i + 1), b + stepN st.k_ b e * (i + 1)) ∧
    keyAt st (b + stepN st.k_ b e * (i + 1)).toNat = key ∧
    ∃ l, emit_from st key (b + stepN st.k_ b e * (i + 1)).toNat = some l ∧
      l.Perm ((List.range' lo (hi2 + 1 - lo)).map (valAt st)) := by
  have hk := v.hk
  have hN1 := v.hN1
  have hinv := hnode.inv hk (root_inv st v hL)
  have hcL := hinv.hc
  have hbe : b ≤ e := hinv.nonempty hk
  have hb0 : 0 ≤ b := hinv.hb
  have he1 : e ≤ (st.size_ : Int) - 1 := hinv.he
  obtain ⟨hq, hqk, hq0⟩ := step_facts st.k_ st.size_ b e hb0 hbe he1 hN
  have hmul2 : ∀ m : Nat, m + 1 ≤ st.k_ → stepN st.k_ b e * ((m : Int) + 1) ≤ e - b := by
    intro m hm
    have h1 : stepN st.k_ b e * ((m : Int) + 1) ≤ stepN st.k_ b e * (st.k_ : Int) := by
      apply mul_le_mul_of_nonneg_left _ (stepN_nonneg _ _ _)
      exact_mod_cast by omega
    have h2 := stepN_mul_le st.k_ b e hbe
    omega
  have hreads : ∀ t, t < st.k_ - 1 →
      st.inner_nodes_.getD ((st.k_ ^ c - 1 + d) + t) none =
      some ((fun t => keyAt st (b + stepN st.k_ b e * (t + 1)).toNat) t) := by
    intro t ht
    have h1 := valid_pivot st v hN hL c d b e hnode t ht
    unfold keyAt
    exact h1
  have hvi : keyAt st (b + stepN st.k_ b e * ((i : Int) + 1)).toNat = key := by
    have h1 := hreads i hi
    rw [hpiv] at h1
    exact (Option.some.inj h1).symm
  have heqsome : firstEqAux st key (st.k_ ^ c - 1 + d) (st.k_ - 1) = some (some i) := by
    rcases firstEqAux_spec st key (fun t => keyAt st (b + stepN st.k_ b e * (t + 1)).toNat)
      (st.k_ - 1) (st.k_ ^ c - 1 + d) hreads with ⟨_, hne⟩ | ⟨j, hjlt, heqs, hveq, hnej⟩
    · exact absurd hvi (by simpa using hne i hi)
    · rcases Nat.lt_trichotomy j i with hlt | heqj | hgt
      · have h2 := hreads j (by omega)
        simp only at h2 hveq
        rw [hveq] at h2
        exact absurd h2 (hfirst j hlt)
      · rw [← heqj]
        exact heqs
      · exact absurd hvi (by simpa using hnej i hgt)
  have hx : ((u64 (e - b) / st.k_ * (i + 1) : Nat) : Int) =
      stepN st.k_ b e * ((i : Int) + 1) := by
    rw [Nat.cast_mul, hq, Nat.cast_add, Nat.cast_one]
  have hbound : b + ((u64 (e - b) / st.k_ * (i + 1) : Nat) : Int) < 2 ^ 31 := by
    have h2 := hmul2 i (by omega)
    omega
  have hres : find_inner_layers_internal st key b e (st.k_ ^ c - 1) d c =
      some (b + stepN st.k_ b e * ((i : Int) + 1), b + stepN st.k_ b e * ((i : Int) + 1)) := by
    rw [fint_step_eq st key b e (st.k_ ^ c - 1) d c i (by omega) heqsome,
      pAdd0_eq _ _ hb0 hbound, hx]
  have hstep0 : 0 ≤ stepN st.k_ b e * ((i : Int) + 1) :=
    mul_nonneg (stepN_nonneg _ _ _) (by omega)
  have hPlt : (b + stepN st.k_ b e * ((i : Int) + 1)).toNat < st.size_ := by
    have h2 := hmul2 i (by omega)
    omega
  have hb2 := (hrun _ hPlt).mp hvi
  have hin : ∀ p, lo ≤ p → p ≤ hi2 → keyAt st p = key := fun p h1 h2 =>
    (hrun p (by omega)).mpr ⟨h1, h2⟩
  have hleft : 1 ≤ lo → keyAt st (lo - 1) ≠ key := by
    intro h1 hcon
    have := (hrun (lo - 1) (by omega)).mp hcon
    omega
  have hright : hi2 + 1 < st.size_ → keyAt st (hi2 + 1) ≠ key := by
    intro h1 hcon
    have := (hrun (hi2 + 1) (by omega)).mp hcon
    omega
  refine ⟨hres, hvi, _, emit_run st key lo hi2 _ hN hhi2 hb2.1 hb2.2 hin hleft hright, ?_⟩
  exact run_perm (valAt st) lo hi2 _ hb2.1 hb2.2

unseal construct_inner_layers_internal in
theorem kary_C7_witness :
    find_inner_layers_internal stS4 3 0 ((stS4.size_ : Int) - 1) (stS4.k_ ^ 0 - 1) 0 0 =
      some (0 + stepN stS4.k_ 0 ((stS4.size_ : Int) - 1) * (0 + 1),
        0 + stepN stS4.k_ 0 ((stS4.size_ : Int) - 1) * (0 + 1)) ∧
    keyAt stS4 (0 + stepN stS4.k_ 0 ((stS4.size_ : Int) - 1) * (0 + 1)).toNat = 3 ∧
    ∃ l, emit_from stS4 3
        (0 + stepN stS4.k_ 0 ((stS4.size_ : Int) - 1) * (0 + 1)).toNat = some l ∧
      l.Perm ((List.range' 2 (5 + 1 - 2)).map (valAt stS4)) :=
  kary_C7 stS4 3 vS4 (by decide) (by decide) 0 0 0 ((stS4.size_ : Int) - 1)
    (NodeFrom.refl 0 0 0 ((stS4.size_ : Int) - 1)) 0 (by decide) (by decide)
    (fun t ht => absurd ht (by omega)) 2 5 (by decide) (by decide)

/-- C8: a second `reorganize` immediately after a successful one leaves the
index literally identical — the snapshot projection and the pivot
construction are deterministic functions of the unchanged data table. -/
theorem kary_C8 (st0 st1 : KAryIndex) (h : reorganize st0 = (st1, false)) :
    reorganize st1 = (st1, false) := by
  obtain ⟨htab, hc, hL, hkk, hmin, hmax, hM, hI⟩ := reorganize_success_fields st0 st1 h
  have hC : project_sorted st1.table = st1.container_ := by
    rw [htab, hc]
  have hg : st1.k_ ^ st1.num_layers_ - 1 < (project_sorted st1.table).size := by
    rw [htab, hL, hkk]
    exact hM
  have hkmin : ((project_sorted st1.table).getD 0 dEntry).key_ = st1.key_min_ := by
    rw [htab, hmin]
  have hkmax : ((project_sorted st1.table).getD ((project_sorted st1.table).size - 1)
      dEntry).key_ = st1.key_max_ := by
    rw [htab, hmax]
  rw [reorganize]
  dsimp only
  rw [if_neg (not_not_intro hg)]
  by_cases hL0 : st1.num_layers_ = 0
  · rw [if_neg (not_not_intro hL0)]
    have hinn : (#[] : Array (Option Nat)) = st1.inner_nodes_ := by
      rw [hI, if_neg (not_not_intro (by omega : st0.num_layers_ = 0))]
    rw [hkmin, hkmax, hC, hinn]
  · rw [if_pos (by omega : st1.num_layers_ ≠ 0)]
    have hinn : construct_inner_layers (project_sorted st1.table) st1.k_ st1.num_layers_
        (Array.mkArray (st1.k_ ^ st1.num_layers_ - 1) none) = st1.inner_nodes_ := by
      rw [htab, hkk, hL, hI, if_pos (by omega : st0.num_layers_ ≠ 0)]
    rw [hkmin, hkmax, hinn, hC]

theorem kary_C8_witness : reorganize stS4 = (stS4, false) := kary_C8 st0S4 stS4 reS4

/-- C9 (amended): with `L = 0` the inner-layer descent returns the pair
`(0, size_)` — not `(0, size_ - 1)` — and the binary search of `find` then
runs over exactly that window `[0, size_]` of the snapshot. -/
theorem kary_C9 (st : KAryIndex) (key : Nat) (v : Valid st) (hN : st.size_ ≤ 2 ^ 30)
    (hL : st.num_layers_ = 0) (hmin : st.key_min_ ≤ key) (hmax : key ≤ st.key_max_)
    (hMm : st.key_max_ ≠ st.key_min_) :
    find_inner_layers st key = some (0, (st.size_ : Int)) ∧
    ∃ res : Nat, find_internal st key 0 (st.size_ : Int) = some res ∧
      find st key = emit_from st key res := by
  have hN1 := v.hN1
  have hFIL : find_inner_layers st key = some (0, (st.size_ : Int)) := by
    rw [find_inner_layers, if_pos hL]
  refine ⟨hFIL, ?_⟩
  have hkm2 : key ≤ keyAt st (st.size_ - 1) := by
    rw [← v.hmax]
    exact hmax
  have hoccall : OccIn st key 0 (st.size_ : Int) := fun p hp _ => ⟨by omega, by omega⟩
  obtain ⟨res, hres, hcase, hnone⟩ := find_internal_spec st key v.hsorted hN1 hN hkm2
    (st.size_ + 1) 0 (st.size_ : Int) (by omega) (by omega) (by omega)
    (fun _ h1 => absurd h1 (by omega)) hoccall
  refine ⟨res, hres, ?_⟩
  rw [find, if_neg (by omega), if_neg (by push_neg; exact ⟨by omega, by omega⟩),
    if_neg hMm, hFIL]
  dsimp only
  rw [if_neg (by omega : ¬ (0 : Int) = (st.size_ : Int)), hres]

theorem kary_C9_witness :
    find_inner_layers stZ 2 = some (0, (stZ.size_ : Int)) ∧
    ∃ res : Nat, find_internal stZ 2 0 (stZ.size_ : Int) = some res ∧
      find stZ 2 = emit_from stZ 2 res :=
  kary_C9 stZ 2 vZ (by decide) (by decide) (by decide) (by decide) (by decide)

/-- C9 fails as stated: on the three-entry `L = 0` index the descent returns
`(0, 3)`, which is `(0, size_)`, not the claimed `(0, size_ - 1)`. -/
theorem kary_C9_cex :
    find_inner_layers stZ 2 = some (0, (stZ.size_ : Int)) ∧
    some ((0 : Int), (stZ.size_ : Int)) ≠ some ((0 : Int), (stZ.size_ : Int) - 1) := by
  constructor
  · decide
  · decide

/-- C10: on every state produced by a successful rebuild, `find` never reads
the snapshot or the pivot array out of bounds for any key: in the total
embedding, where an out-of-bounds read propagates `none`, the lookup always
returns a value. -/
theorem kary_C10 (st : KAryIndex) (key : Nat) (v : Valid st)
    (hN : st.size_ ≤ 2 ^ 30) : (find st key).isSome :=
  find_total st key v hN

theorem kary_C10_witness : (find stS4 4).isSome :=
  kary_C10 stS4 4 vS4 (by decide)
